import Mathlib

/-!
# A cursor-based doubly-linked list (`src/List/list.c`)

A shallow embedding of the list container of `src/List/list.c` and the
properties of its index resolution, insertion and splicing.

## Memory model

* A pointer to a `ListNode` is a natural number, the address counted in units of
  `sizeof(ListNode)`; `NULL` is the address `0`.  The payload of a node lives
  right behind the node, at `node + 1` (`list_node_data`, `list_get`).
* The heap is a total map from addresses to the two link fields of a node.
  Reading or writing a field through `NULL` is a fault (`Fault.nullDeref`).
* `unsigned int` values are natural numbers below `2^32`; unsigned arithmetic is
  written with an explicit `% 2^32`.  `long long` values are integers.
* The two `while` loops of `llist_get_node` take a fuel argument: the number of
  iterations they may run before the model gives up with `Fault.outOfFuel`.
* The C file calls `get_node` (in `list_insert` and `list_get`); the only index
  resolution routine the file defines is `llist_get_node`, which is what those
  calls are taken to mean.
-/

namespace BitsOfC

/-- The address of a `ListNode`, in units of `sizeof(ListNode)`. -/
abbrev Ptr := Nat

/-- The null pointer. -/
abbrev NULL : Ptr := 0

/-- The modulus of `unsigned int` arithmetic. -/
abbrev U32 : Nat := 2 ^ 32

/-- The least `long long`: decrementing it is a signed overflow. -/
abbrev LLONG_MIN : Int := -(2 ^ 63)

/-- The link fields of `struct ListNode` (list.c, lines 12-30). -/
structure ListNode where
  next : Ptr
  prev : Ptr
deriving DecidableEq, Repr

/-- The fields of `struct List` (list.c, lines 37-48); the header's
`llist_splice` calls the struct `LList`, the name used here. -/
structure LList where
  top : Ptr
  bot : Ptr
  cursor : Ptr
  len : Nat
  ci : Nat
deriving DecidableEq, Repr

/-- The memory an operation works on: the `List` struct it is handed and the
link fields of every node. -/
structure Mem where
  list : LList
  node : Ptr → ListNode

/-- The ways a run can fail to return. -/
inductive Fault where
  | nullDeref
  | signedOverflow
  | outOfFuel
deriving DecidableEq, Repr

/-- The direction enum of `llist_get_node` (list.c, lines 151-154): `FORWARD` is
the enumerator `0`, `BACKWARD` is `1`. -/
inductive Dir where
  | FORWARD
  | BACKWARD
deriving DecidableEq, Repr

/-- The C test `!dir`: true exactly for the enumerator `0`. -/
def Dir.isZero : Dir → Bool
  | .FORWARD => true
  | .BACKWARD => false

/-- Read `p->next`. -/
def loadNext (m : Mem) (p : Ptr) : Except Fault Ptr :=
  if p = NULL then .error .nullDeref else .ok (m.node p).next

/-- Read `p->prev`. -/
def loadPrev (m : Mem) (p : Ptr) : Except Fault Ptr :=
  if p = NULL then .error .nullDeref else .ok (m.node p).prev

/-- Write `p->next = v`. -/
def storeNext (m : Mem) (p v : Ptr) : Except Fault Mem :=
  if p = NULL then .error .nullDeref
  else .ok { m with node := fun q => if q = p then { m.node q with next := v } else m.node q }

/-- Write `p->prev = v`. -/
def storePrev (m : Mem) (p v : Ptr) : Except Fault Mem :=
  if p = NULL then .error .nullDeref
  else .ok { m with node := fun q => if q = p then { m.node q with prev := v } else m.node q }

/-- Function `list_init` (list.c, lines 62-66): `top`, `bot` and `cursor` become `NULL`
and `len` becomes `0`; `ci` is not written. -/
def list_init (m : Mem) : Mem :=
  { m with list := { m.list with top := NULL, bot := NULL, cursor := NULL, len := 0 } }

/-- Function `list_append` (list.c, lines 95-107). -/
def list_append (m : Mem) (node : Ptr) : Except Fault Mem :=
  if m.list.top = NULL then
    .ok { m with list := { m.list with top := node, bot := node, cursor := node } }
  else do
    let m1 ← storePrev m node m.list.bot
    let m2 ← storeNext m1 node NULL
    let m3 ← storeNext m2 m2.list.bot node
    .ok { m3 with list := { m3.list with bot := node, cursor := node } }

/-- Function `list_prepend` (list.c, lines 109-122). -/
def list_prepend (m : Mem) (node : Ptr) : Except Fault Mem :=
  if m.list.top = NULL then
    .ok { m with list := { m.list with top := node, bot := node, cursor := node } }
  else do
    let m1 ← storeNext m node m.list.top
    let m2 ← storePrev m1 node NULL
    let m3 ← storePrev m2 m2.list.top node
    .ok { m3 with list := { m3.list with top := node, cursor := node } }

/-- The forward loop of `llist_get_node` (list.c, lines 174-177):
`while ( dc ){ cur = cur->next; --dc; }`, run for at most `fuel` iterations. -/
def walkNext (node : Ptr → ListNode) : Nat → Ptr → Int → Except Fault Ptr
  | 0, cur, dc => if dc = 0 then .ok cur else .error .outOfFuel
  | fuel + 1, cur, dc =>
    if dc = 0 then .ok cur
    else if cur = NULL then .error .nullDeref
    else if dc = LLONG_MIN then .error .signedOverflow
    else walkNext node fuel (node cur).next (dc - 1)

/-- The backward loop of `llist_get_node` (list.c, lines 180-183):
`while ( dc ){ cur = cur->prev; --dc; }`, run for at most `fuel` iterations. -/
def walkPrev (node : Ptr → ListNode) : Nat → Ptr → Int → Except Fault Ptr
  | 0, cur, dc => if dc = 0 then .ok cur else .error .outOfFuel
  | fuel + 1, cur, dc =>
    if dc = 0 then .ok cur
    else if cur = NULL then .error .nullDeref
    else if dc = LLONG_MIN then .error .signedOverflow
    else walkPrev node fuel (node cur).prev (dc - 1)

/-- The distance from the cursor as line 144 computes it: the `unsigned int`
difference `i - l->ci`, widened to `long long`. -/
def cursorDelta (i ci : Nat) : Int := (((i + U32 - ci) % U32 : Nat) : Int)

/-- The distance from the bottom as line 145 computes it: the `unsigned int`
difference `l->len - i`, widened to `long long`. -/
def botDelta (len i : Nat) : Int := (((len + U32 - i) % U32 : Nat) : Int)

/-- The direction chosen on line 154: `dc > 0 ? FORWARD : BACKWARD`. -/
def cursorDir (dc : Int) : Dir := if dc > 0 then .FORWARD else .BACKWARD

/-- Line 156: `if ( !dir ) dc = -dc;`. -/
def normalise (dir : Dir) (dc : Int) : Int := if dir.isZero then -dc else dc

/-- The anchor, step count and direction chosen on lines 158-171. -/
def chooseAnchor (l : LList) (i : Nat) : Ptr × Int × Dir :=
  let dc0 := cursorDelta i l.ci
  let db := botDelta l.len i
  let dir := cursorDir dc0
  let dc := normalise dir dc0
  if dc ≤ (i : Int) ∧ dc ≤ db then (l.cursor, dc, dir)
  else if (i : Int) ≤ db then (l.top, (i : Int), .FORWARD)
  else (l.bot, db, .BACKWARD)

/-- Function `llist_get_node` (list.c, lines 124-190).  Returns the node pointer and the
memory after the call. -/
def llist_get_node (fuel : Nat) (m : Mem) (i : Nat) : Except Fault (Ptr × Mem) :=
  if i ≥ m.list.len then .ok (NULL, m)
  else if i = m.list.ci then .ok (m.list.cursor, m)
  else if i = 0 then .ok (m.list.top, m)
  else if i = (m.list.len + U32 - 1) % U32 then .ok (m.list.bot, m)
  else
    match chooseAnchor m.list i with
    | (start, dc, dir) => do
      let cur ← match dir with
        | .FORWARD => walkNext m.node fuel start dc
        | .BACKWARD => walkPrev m.node fuel start dc
      .ok (cur, { m with list := { m.list with cursor := cur, ci := i } })

/-- The relinking of `list_insert` (list.c, lines 222-230): `node` is put right
before `cur`, becomes the cursor at index `i`, and `len` is incremented. -/
def insertBefore (m : Mem) (node cur : Ptr) (i : Nat) : Except Fault Mem := do
  let m2 ← storeNext m node cur
  let cp ← loadPrev m2 cur
  let m3 ← storePrev m2 node cp
  let m4 ← storePrev m3 cur node
  let np ← loadPrev m4 node
  let m5 ← storeNext m4 np node
  .ok { m5 with list :=
    { m5.list with cursor := node, ci := i, len := (m5.list.len + 1) % U32 } }

/-- Function `list_insert` (list.c, lines 192-233).  Returns the boolean and the memory
after the call. -/
def list_insert (fuel : Nat) (m : Mem) (node : Ptr) (i : Nat) : Except Fault (Bool × Mem) :=
  if i > m.list.len then .ok (false, m)
  else if i = 0 then do
    let m1 ← list_prepend m node
    .ok (true, m1)
  else if i = m.list.len then do
    let m1 ← list_append m node
    .ok (true, m1)
  else do
    let (cur, m1) ← llist_get_node fuel m i
    let m2 ← insertBefore m1 node cur i
    .ok (true, m2)

/-- Function `list_get` (list.c, lines 235-247): `NULL`, or the address right behind the
node. -/
def list_get (fuel : Nat) (m : Mem) (i : Nat) : Except Fault (Ptr × Mem) := do
  let (node, m1) ← llist_get_node fuel m i
  if node = NULL then .ok (NULL, m1) else .ok (node + 1, m1)

/-- The cursor block of `llist_splice` (list.c, lines 254-270). -/
def spliceCursor (m : Mem) (node : Ptr) : Except Fault Mem :=
  if m.list.cursor = node then do
    let p ← loadPrev m node
    if p ≠ NULL then
      .ok { m with list := { m.list with ci := (m.list.ci + U32 - 1) % U32, cursor := p } }
    else do
      let n ← loadNext m node
      if n ≠ NULL then
        .ok { m with list := { m.list with ci := (m.list.ci + 1) % U32, cursor := n } }
      else .ok (list_init m)
  else .ok m

/-- The repair of the link into the node from the front (list.c, lines
273-278): the predecessor's `next`, or `top`, takes the node's `next`. -/
def spliceTop (m : Mem) (node : Ptr) : Except Fault Mem := do
  let p ← loadPrev m node
  if p ≠ NULL then do
    let n ← loadNext m node
    storeNext m p n
  else do
    let n ← loadNext m node
    pure { m with list := { m.list with top := n } }

/-- The repair of the link into the node from the back (list.c, lines
280-285): the successor's `prev`, or `bot`, takes the node's `prev`. -/
def spliceBot (m : Mem) (node : Ptr) : Except Fault Mem := do
  let n ← loadNext m node
  if n ≠ NULL then do
    let p ← loadPrev m node
    storePrev m n p
  else do
    let p ← loadPrev m node
    pure { m with list := { m.list with bot := p } }

/-- Function `llist_splice` (list.c, lines 249-289): the cursor block, the two link
repairs, and `--(list->len)`. -/
def llist_splice (m : Mem) (node : Ptr) : Except Fault Mem := do
  let m1 ← spliceCursor m node
  let m2 ← spliceTop m1 node
  let m3 ← spliceBot m2 node
  .ok { m3 with list := { m3.list with len := (m3.list.len + U32 - 1) % U32 } }

/-! ## Reading a list off the heap -/

/-- The nodes met from `p` by following `next` until `NULL`, at most `fuel` of
them. -/
def nextChain (node : Ptr → ListNode) : Nat → Ptr → List Ptr
  | 0, _ => []
  | fuel + 1, p => if p = NULL then [] else p :: nextChain node fuel (node p).next

/-- The nodes met from `p` by following `prev` until `NULL`, at most `fuel` of
them. -/
def prevChain (node : Ptr → ListNode) : Nat → Ptr → List Ptr
  | 0, _ => []
  | fuel + 1, p => if p = NULL then [] else p :: prevChain node fuel (node p).prev

/-- A doubly-linked segment: the nodes `ns`, in order, are non-null, each one's
`prev` is its predecessor (`before` for the first) and each one's `next` is its
successor (`after` for the last). -/
def Seg (node : Ptr → ListNode) : Ptr → List Ptr → Ptr → Prop
  | _, [], _ => True
  | before, n :: rest, after =>
    n ≠ NULL ∧ (node n).prev = before ∧ (node n).next = rest.headD after ∧
      Seg node n rest after

/-- The links of a list: `ns` are the nodes of the list in order, pairwise
distinct; the `next` links lead from `top` through them to `NULL` and the
`prev` links lead from `bot` back through them to `NULL`. -/
structure Chain (m : Mem) (ns : List Ptr) : Prop where
  nodup : ns.Nodup
  seg : Seg m.node NULL ns NULL
  top_eq : m.list.top = ns.headD NULL
  bot_eq : m.list.bot = ns.getLastD NULL

/-- A well-formed list with node sequence `ns`: the links are those of `ns`,
`len` is the number of nodes (an `unsigned int`), and the cursor is `NULL` for
the empty list and otherwise the node at position `ci < len`. -/
structure WellFormed (m : Mem) (ns : List Ptr) extends Chain m ns : Prop where
  len_eq : m.list.len = ns.length
  len_lt : ns.length < U32
  cursor_ok : (ns = [] ∧ m.list.cursor = NULL) ∨
    (m.list.ci < ns.length ∧ ns[m.list.ci]? = some m.list.cursor)

/-- A heap given by a table: the node at address `k + 1` has the links of the
`k`-th entry `(next, prev)`; every other node has null links. -/
def heapOf (tbl : List (Ptr × Ptr)) : Ptr → ListNode := fun p =>
  match p with
  | 0 => ⟨NULL, NULL⟩
  | k + 1 => match tbl[k]? with
    | some (n, q) => ⟨n, q⟩
    | none => ⟨NULL, NULL⟩

/-- The list `[1, 2, 3]` with the cursor on its first node. -/
def exThree : Mem :=
  { list := { top := 1, bot := 3, cursor := 1, len := 3, ci := 0 }
    node := heapOf [(2, 0), (3, 1), (0, 2)] }

/-- The one-node list `[1]`; node `2` is outside it. -/
def exOne : Mem :=
  { list := { top := 1, bot := 1, cursor := 1, len := 1, ci := 0 }
    node := heapOf [(0, 0), (0, 0)] }

/-- The list `[1, 2]` with the cursor on its last node; node `3` is outside
it. -/
def exTwo : Mem :=
  { list := { top := 1, bot := 2, cursor := 2, len := 2, ci := 1 }
    node := heapOf [(2, 0), (0, 1), (0, 0)] }

/-- The list `[1, 2, 3]` with the cursor on its last node. -/
def exThreeLast : Mem :=
  { list := { top := 1, bot := 3, cursor := 3, len := 3, ci := 2 }
    node := heapOf [(2, 0), (3, 1), (0, 2)] }

/-- A freshly initialised list: `list_init` run on a struct whose fields hold
arbitrary values; the nodes `1`, `2`, `3` have null links. -/
def exInit : Mem :=
  list_init { list := { top := 5, bot := 6, cursor := 7, len := 8, ci := 9 }
              node := heapOf [] }

/-- What a sequence of insertions is made of. -/
inductive InsertOp where
  | append (node : Ptr)
  | prepend (node : Ptr)
  | insert (node : Ptr) (i : Nat)

/-- Run one insertion; the boolean says whether it succeeded (`list_append` and
`list_prepend` always do). -/
def runOp (fuel : Nat) (m : Mem) : InsertOp → Except Fault (Bool × Mem)
  | .append node => do
    let m1 ← list_append m node
    pure (true, m1)
  | .prepend node => do
    let m1 ← list_prepend m node
    pure (true, m1)
  | .insert node i => list_insert fuel m node i

/-- Run a sequence of insertions, counting the ones that succeeded. -/
def runOps (fuel : Nat) : Mem → List InsertOp → Except Fault (Nat × Mem)
  | m, [] => pure (0, m)
  | m, op :: ops => do
    let (b, m1) ← runOp fuel m op
    let (k, m2) ← runOps fuel m1 ops
    pure ((if b then k + 1 else k), m2)

/-- The loop of `list_cleanup` (list.c, lines 70-73):
`while ( list->bot ){ list->bot = list->bot->prev; free( list->bot->next ); }`,
run for at most `fuel` iterations.  The argument of `free` is read through the
new `list->bot`; `free` itself writes no link field, and no freed node is read
again by the loop, so the model keeps no record of it. -/
def cleanupLoop : Nat → Mem → Except Fault Mem
  | 0, m => if m.list.bot = NULL then .ok m else .error .outOfFuel
  | fuel + 1, m =>
    if m.list.bot = NULL then .ok m
    else do
      let p ← loadPrev m m.list.bot
      let m1 : Mem := { m with list := { m.list with bot := p } }
      let _ ← loadNext m1 m1.list.bot
      cleanupLoop fuel m1

/-- Function `list_cleanup` (list.c, lines 68-77): the loop, then
`list_init`. -/
def list_cleanup (fuel : Nat) (m : Mem) : Except Fault Mem := do
  let m1 ← cleanupLoop fuel m
  .ok (list_init m1)

/-- The list `[1, 2, 3, 4]` with the cursor on its second node. -/
def exFourSecond : Mem :=
  { list := { top := 1, bot := 4, cursor := 2, len := 4, ci := 1 }
    node := heapOf [(2, 0), (3, 1), (4, 2), (0, 3)] }

/-- The list `[1, 2, 3, 4]` with the cursor on its third node. -/
def exFourThird : Mem :=
  { list := { top := 1, bot := 4, cursor := 3, len := 4, ci := 2 }
    node := heapOf [(2, 0), (3, 1), (4, 2), (0, 3)] }

/-- The list `[1, 2, 3, 4]` with the cursor on its last node. -/
def exFourLast : Mem :=
  { list := { top := 1, bot := 4, cursor := 4, len := 4, ci := 3 }
    node := heapOf [(2, 0), (3, 1), (4, 2), (0, 3)] }

/-- The list of the `N` nodes `1, ..., N` in order, with the cursor on its last
node: node `k` has `next = k + 1` (`NULL` for the last) and `prev = k - 1`. -/
def fullMem (N : Nat) : Mem :=
  { list := { top := 1, bot := N, cursor := N, len := N, ci := N - 1 }
    node := fun k => ⟨if k = N then NULL else k + 1, k - 1⟩ }

/-- The longest list whose length is an `unsigned int`: `UINT_MAX` nodes. -/
def exFull : Mem := fullMem 4294967295

/-! ## Basic facts -/

theorem wf_exThree : WellFormed exThree [1, 2, 3] := by
  refine ⟨⟨by decide, ?_, rfl, rfl⟩, rfl, by decide, Or.inr ⟨by decide, rfl⟩⟩
  simp [Seg, exThree, heapOf]

theorem wf_exThreeLast : WellFormed exThreeLast [1, 2, 3] := by
  refine ⟨⟨by decide, ?_, rfl, rfl⟩, rfl, by decide, Or.inr ⟨by decide, rfl⟩⟩
  simp [Seg, exThreeLast, heapOf]

theorem wf_exOne : WellFormed exOne [1] := by
  refine ⟨⟨by decide, ?_, rfl, rfl⟩, rfl, by decide, Or.inr ⟨by decide, rfl⟩⟩
  simp [Seg, exOne, heapOf]

theorem wf_exTwo : WellFormed exTwo [1, 2] := by
  refine ⟨⟨by decide, ?_, rfl, rfl⟩, rfl, by decide, Or.inr ⟨by decide, rfl⟩⟩
  simp [Seg, exTwo, heapOf]

theorem wf_exInit : WellFormed exInit [] :=
  ⟨⟨by decide, trivial, rfl, rfl⟩, rfl, by decide, Or.inl ⟨rfl, rfl⟩⟩

/-- With a negative step count the forward loop never leaves through its exit
test: the counter only moves away from `0`. -/
theorem walkNext_neg (node : Ptr → ListNode) (fuel : Nat) :
    ∀ (cur : Ptr) (dc : Int), dc < 0 → ∀ p, walkNext node fuel cur dc ≠ .ok p := by
  induction fuel with
  | zero =>
    intro cur dc h p
    have h0 : dc ≠ 0 := by omega
    simp [walkNext, h0]
  | succ k ih =>
    intro cur dc h p
    have h0 : dc ≠ 0 := by omega
    unfold walkNext
    simp only [h0, if_false]
    split
    · simp
    · split
      · simp
      · exact ih _ _ (by omega) p

/-- The first node of a non-empty sequence is its element at position `0`. -/
theorem headD_getElem? (ns : List Ptr) (d : Ptr) (h : ns ≠ []) :
    ns[0]? = some (ns.headD d) := by
  cases ns with
  | nil => exact absurd rfl h
  | cons a t => simp

/-- The last node of a non-empty sequence is its element at position
`length - 1`. -/
theorem getLastD_getElem? (ns : List Ptr) (d : Ptr) (h : ns ≠ []) :
    ns[ns.length - 1]? = some (ns.getLastD d) := by
  rw [List.getLastD_eq_getLast?, ← List.getLast?_eq_getElem?]
  cases hl : ns.getLast? with
  | none => exact absurd (List.getLast?_eq_none_iff.mp hl) h
  | some a => rfl

/-- Past the three fast paths the walk always starts at the cursor, forward,
with a negative step count: the `unsigned int` difference of line 144 is
positive whenever `i` differs from `ci`, so `dir` is `FORWARD`, and line 156
negates the count exactly then. -/
theorem chooseAnchor_slow (l : LList) (i : Nat) (hi : i < U32) (hci : l.ci < U32)
    (hne : i ≠ l.ci) :
    ∃ dc : Int, dc < 0 ∧ chooseAnchor l i = (l.cursor, dc, Dir.FORWARD) := by
  have hpos : 0 < (i + U32 - l.ci) % U32 := by
    simp only [U32] at *
    omega
  have hd : cursorDelta i l.ci > 0 := by
    unfold cursorDelta
    exact_mod_cast hpos
  have hb : (0 : Int) ≤ botDelta l.len i := by
    unfold botDelta
    exact Int.ofNat_nonneg _
  refine ⟨-cursorDelta i l.ci, by omega, ?_⟩
  have h1 : -cursorDelta i l.ci ≤ (i : Int) := by omega
  have h2 : -cursorDelta i l.ci ≤ botDelta l.len i := by omega
  simp [chooseAnchor, cursorDir, hd, normalise, Dir.isZero, h1, h2]

/-- Past the three fast paths `llist_get_node` returns no node, whatever the
fuel: its walk runs forward from the cursor with a negative counter. -/
theorem llist_get_node_slow_never_ok (fuel : Nat) (m : Mem) (i : Nat)
    (hi : i < m.list.len) (hlen : m.list.len < U32) (hci : m.list.ci < U32)
    (h1 : i ≠ m.list.ci) (h2 : i ≠ 0) (h3 : i ≠ m.list.len - 1) :
    ∀ r, llist_get_node fuel m i ≠ .ok r := by
  intro r
  obtain ⟨dc, hdc, hch⟩ := chooseAnchor_slow m.list i (by omega) hci h1
  have hbot : (m.list.len + U32 - 1) % U32 = m.list.len - 1 := by
    simp only [U32] at *
    omega
  have hge : ¬ i ≥ m.list.len := by omega
  unfold llist_get_node
  rw [if_neg hge, if_neg h1, if_neg h2, hbot, if_neg h3, hch]
  simp only []
  cases hw : walkNext m.node fuel m.list.cursor dc with
  | error e => simp [bind, Except.bind]
  | ok p => exact absurd hw (walkNext_neg m.node fuel _ _ hdc p)

/-! ## Index resolution -/

/-- C1 (evaluation at the failing input): on the well-formed three-node list
`[1, 2, 3]` with the cursor at index `0`, `llist_get_node(list, 1)` does not
return the node at position `1`: with enough fuel for four iterations it reads
`next` through `NULL`, and with no amount of fuel does it return. -/
theorem get_node_middle_index_faults :
    WellFormed exThree [1, 2, 3] ∧ 1 < exThree.list.len ∧
      (∀ fuel, llist_get_node (fuel + 4) exThree 1 = .error .nullDeref) ∧
      ¬ ∃ fuel r, llist_get_node fuel exThree 1 = .ok r := by
  refine ⟨wf_exThree, by decide, ?_, ?_⟩
  · intro fuel
    simp [llist_get_node, exThree, chooseAnchor, cursorDelta, botDelta, cursorDir,
      normalise, Dir.isZero, walkNext, heapOf]
    rfl
  · rintro ⟨fuel, r, h⟩
    exact llist_get_node_slow_never_ok fuel exThree 1 (by decide) (by decide) (by decide)
      (by decide) (by decide) (by decide) r h

/-- C2 (counterexample): on the well-formed list `[1, 2, 3]` with the cursor on
its last node (`ci = 2`), `llist_get_node(list, 0)` returns the first node,
whatever the fuel, and leaves the cursor on the last one, with `ci` still
`2`. -/
theorem get_node_zero_leaves_cursor :
    WellFormed exThreeLast [1, 2, 3] ∧ 0 < exThreeLast.list.len ∧
      ∀ fuel, ∃ p m, llist_get_node fuel exThreeLast 0 = .ok (p, m) ∧ p = 1 ∧
        m.list.cursor = 3 ∧ m.list.ci = 2 ∧ ¬ (m.list.cursor = p ∧ m.list.ci = 0) :=
  ⟨wf_exThreeLast, by decide, fun _ => ⟨_, _, rfl, rfl, rfl, rfl, by decide⟩⟩

/-- C2 (amended): for a well-formed list and an index `i < len` that takes one
of the three fast paths (`i = ci`, `i = 0` or `i = len - 1`), whatever the
fuel, `llist_get_node(list, i)` returns the node at position `i` and leaves the
memory, cursor and `ci` included, as it was; so when `i = ci` the cursor is the
returned node and `ci` is `i` after the call. -/
theorem get_node_fast_path (fuel : Nat) (m : Mem) (ns : List Ptr) (i : Nat)
    (hwf : WellFormed m ns) (hi : i < m.list.len)
    (hfast : i = m.list.ci ∨ i = 0 ∨ i = m.list.len - 1) :
    ∃ p, llist_get_node fuel m i = .ok (p, m) ∧ ns[i]? = some p ∧
      (i = m.list.ci → m.list.cursor = p ∧ m.list.ci = i) := by
  have hne : ns ≠ [] := by
    intro h
    have := hwf.len_eq
    simp [h] at this
    omega
  have hge : ¬ i ≥ m.list.len := by omega
  have hlt := hwf.len_lt
  have hlen := hwf.len_eq
  have hbot : (m.list.len + U32 - 1) % U32 = m.list.len - 1 := by
    simp only [U32] at *
    omega
  unfold llist_get_node
  rw [if_neg hge]
  by_cases h1 : i = m.list.ci
  · rw [if_pos h1]
    refine ⟨m.list.cursor, rfl, ?_, fun _ => ⟨rfl, h1.symm⟩⟩
    rcases hwf.cursor_ok with ⟨h, _⟩ | ⟨_, h⟩
    · exact absurd h hne
    · rw [h1]
      exact h
  · rw [if_neg h1]
    by_cases h2 : i = 0
    · rw [if_pos h2]
      refine ⟨m.list.top, rfl, ?_, fun h => absurd h h1⟩
      rw [h2, hwf.top_eq]
      exact headD_getElem? ns NULL hne
    · rw [if_neg h2]
      have h3 : i = m.list.len - 1 := by
        rcases hfast with h | h | h
        · exact absurd h h1
        · exact absurd h h2
        · exact h
      rw [hbot, if_pos h3]
      refine ⟨m.list.bot, rfl, ?_, fun h => absurd h h1⟩
      rw [h3, hwf.bot_eq, hlen]
      exact getLastD_getElem? ns NULL hne

/-- C2 (amended), at a concrete input: the list `[1, 2, 3]` with the cursor at
index `0`, asked for index `2`, the last one. -/
theorem get_node_fast_path_witness :
    ∃ p, llist_get_node 0 exThree 2 = .ok (p, exThree) ∧ [1, 2, 3][2]? = some p ∧
      (2 = exThree.list.ci → exThree.list.cursor = p ∧ exThree.list.ci = 2) :=
  get_node_fast_path 0 exThree [1, 2, 3] 2 wf_exThree (by decide) (Or.inr (Or.inr rfl))

/-- C3: for every list state, every fuel and every index `i >= len`,
`llist_get_node(list, i)` and `list_get(list, i)` both return `NULL` and leave
the whole memory (`top`, `bot`, `cursor`, `ci`, `len` and every node's links)
as it was. -/
theorem get_out_of_bounds (fuel : Nat) (m : Mem) (i : Nat) (h : m.list.len ≤ i) :
    llist_get_node fuel m i = .ok (NULL, m) ∧ list_get fuel m i = .ok (NULL, m) := by
  have hg : llist_get_node fuel m i = .ok (NULL, m) := by
    unfold llist_get_node
    rw [if_pos h]
  refine ⟨hg, ?_⟩
  unfold list_get
  rw [hg]
  rfl

/-- C3, at a concrete input: `get(length)` on the three-node list. -/
theorem get_out_of_bounds_witness :
    llist_get_node 0 exThree 3 = .ok (NULL, exThree) ∧
      list_get 0 exThree 3 = .ok (NULL, exThree) :=
  get_out_of_bounds 0 exThree 3 (by decide)

/-! ## Insertion -/

/-- Appending: `list_append` does not write `len` or `ci`. -/
theorem list_append_len_ci (m m1 : Mem) (node : Ptr) (h : list_append m node = .ok m1) :
    m1.list.len = m.list.len ∧ m1.list.ci = m.list.ci := by
  unfold list_append at h
  split at h
  · cases h
    exact ⟨rfl, rfl⟩
  · by_cases hn : node = NULL
    · simp [storePrev, hn, bind, Except.bind] at h
    · by_cases hb : m.list.bot = NULL
      · simp [storePrev, storeNext, hn, hb, bind, Except.bind] at h
      · simp [storePrev, storeNext, hn, hb, bind, Except.bind] at h
        subst h
        exact ⟨rfl, rfl⟩

/-- Prepending: `list_prepend` does not write `len` or `ci`. -/
theorem list_prepend_len_ci (m m1 : Mem) (node : Ptr) (h : list_prepend m node = .ok m1) :
    m1.list.len = m.list.len ∧ m1.list.ci = m.list.ci := by
  unfold list_prepend at h
  split at h
  · cases h
    exact ⟨rfl, rfl⟩
  · by_cases hn : node = NULL
    · simp [storeNext, hn, bind, Except.bind] at h
    · by_cases hb : m.list.top = NULL
      · simp [storePrev, storeNext, hn, hb, bind, Except.bind] at h
      · simp [storePrev, storeNext, hn, hb, bind, Except.bind] at h
        subst h
        exact ⟨rfl, rfl⟩

/-- A list whose `len` is `0` keeps `len = 0` through every insertion: the
only paths `list_insert` can take are the failure and the call of
`list_prepend`. -/
theorem runOp_len_zero (fuel : Nat) (m m1 : Mem) (op : InsertOp) (b : Bool)
    (h0 : m.list.len = 0) (h : runOp fuel m op = .ok (b, m1)) : m1.list.len = 0 := by
  cases op with
  | append node =>
    simp only [runOp] at h
    cases ha : list_append m node with
    | error e => simp [ha, bind, Except.bind] at h
    | ok m2 =>
      simp [ha, bind, Except.bind, pure, Except.pure] at h
      rw [← h.2, (list_append_len_ci m m2 node ha).1, h0]
  | prepend node =>
    simp only [runOp] at h
    cases ha : list_prepend m node with
    | error e => simp [ha, bind, Except.bind] at h
    | ok m2 =>
      simp [ha, bind, Except.bind, pure, Except.pure] at h
      rw [← h.2, (list_prepend_len_ci m m2 node ha).1, h0]
  | insert node i =>
    simp only [runOp, list_insert, h0] at h
    by_cases hi : i > 0
    · rw [if_pos hi] at h
      cases h
      exact h0
    · have hz : i = 0 := by omega
      rw [if_neg hi, if_pos hz] at h
      cases ha : list_prepend m node with
      | error e => simp [ha, bind, Except.bind] at h
      | ok m2 =>
        simp [ha, bind, Except.bind] at h
        rw [← h.2, (list_prepend_len_ci m m2 node ha).1, h0]

/-- From a list with `len = 0`, so from every list `list_init` produced, any
sequence of `list_append`, `list_prepend` and `list_insert` calls that runs to
completion leaves `len` at `0`, however many of them succeeded. -/
theorem runOps_len_zero (fuel : Nat) (ops : List InsertOp) :
    ∀ (m m1 : Mem) (k : Nat), m.list.len = 0 → runOps fuel m ops = .ok (k, m1) →
      m1.list.len = 0 := by
  induction ops with
  | nil =>
    intro m m1 k h0 h
    simp [runOps, pure, Except.pure] at h
    rw [← h.2]
    exact h0
  | cons op ops ih =>
    intro m m1 k h0 h
    simp only [runOps] at h
    cases ho : runOp fuel m op with
    | error e => simp [ho, bind, Except.bind] at h
    | ok r =>
      obtain ⟨b, m2⟩ := r
      cases hr : runOps fuel m2 ops with
      | error e => simp [ho, hr, bind, Except.bind] at h
      | ok r2 =>
        obtain ⟨k2, m3⟩ := r2
        simp [ho, hr, bind, Except.bind, pure, Except.pure] at h
        rw [← h.2]
        exact ih m2 m3 k2 (runOp_len_zero fuel m m2 op b h0 ho) hr

/-- C4 (evaluation at the failing input): on a list fresh from `list_init`,
`append(1)`, `append(2)`, `append(3)` all succeed and link the three nodes in
order, and `len` is `0` afterwards, not `3`. -/
theorem three_appends_len_zero (fuel : Nat) :
    ∃ m, runOps fuel exInit [.append 1, .append 2, .append 3] = .ok (3, m) ∧
      nextChain m.node 4 m.list.top = [1, 2, 3] ∧ m.list.len = 0 :=
  ⟨_, rfl, by decide, rfl⟩

/-- C5 (evaluation at the failing input): appending the outside node `2` to the
well-formed one-node list `[1]` (`len = 1`, `ci = 0`) gives the sequence
`[1, 2]` with `bot` and `cursor` on node `2`, and `ci` is still `0`, not `1`. -/
theorem append_leaves_ci :
    WellFormed exOne [1] ∧ 2 ∉ [1] ∧
      ∃ m, list_append exOne 2 = .ok m ∧ nextChain m.node 3 m.list.top = [1, 2] ∧
        m.list.bot = 2 ∧ m.list.cursor = 2 ∧ m.list.ci = 0 ∧ exOne.list.len = 1 :=
  ⟨wf_exOne, by decide, _, rfl, by decide, rfl, rfl, rfl, rfl⟩

/-- C6 (evaluation at the failing input): prepending the outside node `3` to
the well-formed list `[1, 2]` whose cursor is at index `1` gives the sequence
`[3, 1, 2]` with `top` and `cursor` on node `3`, and `ci` is still `1`,
not `0`. -/
theorem prepend_leaves_ci :
    WellFormed exTwo [1, 2] ∧ 3 ∉ [1, 2] ∧
      ∃ m, list_prepend exTwo 3 = .ok m ∧ nextChain m.node 4 m.list.top = [3, 1, 2] ∧
        m.list.top = 3 ∧ m.list.cursor = 3 ∧ m.list.ci = 1 :=
  ⟨wf_exTwo, by decide, _, rfl, by decide, rfl, rfl, rfl⟩

/-- C7: for every list state, node, index `i` and fuel, `list_insert(list,
node, i)` returns false exactly when `i > len`, and a call that returns false
leaves the whole memory (the list's fields and every node's links, those of
`node` included) as it was. -/
theorem list_insert_false_iff (fuel : Nat) (m : Mem) (node : Ptr) (i : Nat) :
    ((∃ m1, list_insert fuel m node i = .ok (false, m1)) ↔ m.list.len < i) ∧
      ∀ m1, list_insert fuel m node i = .ok (false, m1) → m1 = m := by
  have key : ∀ m1, list_insert fuel m node i = .ok (false, m1) →
      m.list.len < i ∧ m1 = m := by
    intro m1 h
    unfold list_insert at h
    by_cases hi : i > m.list.len
    · rw [if_pos hi] at h
      cases h
      exact ⟨hi, rfl⟩
    · rw [if_neg hi] at h
      exfalso
      split at h
      · cases ha : list_prepend m node with
        | error e => simp [ha, bind, Except.bind] at h
        | ok m2 => simp [ha, bind, Except.bind] at h
      · split at h
        · cases ha : list_append m node with
          | error e => simp [ha, bind, Except.bind] at h
          | ok m2 => simp [ha, bind, Except.bind] at h
        · cases hg : llist_get_node fuel m i with
          | error e => simp [hg, bind, Except.bind] at h
          | ok r =>
            obtain ⟨cur, m2⟩ := r
            cases hb : insertBefore m2 node cur i with
            | error e => simp [hg, hb, bind, Except.bind] at h
            | ok m3 => simp [hg, hb, bind, Except.bind] at h
  refine ⟨⟨fun ⟨m1, h⟩ => (key m1 h).1, fun hi => ⟨m, ?_⟩⟩, fun m1 h => (key m1 h).2⟩
  unfold list_insert
  rw [if_pos hi]

/-- C8 (evaluation at the failing input): on a list fresh from `list_init`,
`list_insert(list, 1, 0)` returns true and the `list_get(list, 0)` right after
it returns `NULL`, whatever the fuel: `len` is still `0`. -/
theorem insert_then_get_null (fuel : Nat) :
    WellFormed exInit [] ∧
      ∃ m, list_insert fuel exInit 1 0 = .ok (true, m) ∧ m.list.top = 1 ∧
        m.list.len = 0 ∧ list_get fuel m 0 = .ok (NULL, m) :=
  ⟨wf_exInit, _, rfl, rfl, rfl, rfl⟩

/-- C9 (evaluation at the failing input): on the well-formed list `[1, 2, 3]`
with the cursor at index `2`, `llist_get_node(list, 2)`, `llist_splice` of the
node it returned and `list_insert` of that node at index `2` all return and
restore the sequence `[1, 2, 3]`, and `len` is `2` afterwards, not `3`. -/
theorem splice_insert_len (fuel : Nat) :
    WellFormed exThreeLast [1, 2, 3] ∧ exThreeLast.list.len = 3 ∧
      ∃ n m1 m2 m3, llist_get_node fuel exThreeLast 2 = .ok (n, m1) ∧
        llist_splice m1 n = .ok m2 ∧ list_insert fuel m2 n 2 = .ok (true, m3) ∧
        nextChain m3.node 4 m3.list.top = [1, 2, 3] ∧ m3.list.len = 2 :=
  ⟨wf_exThreeLast, rfl, _, _, _, _, rfl, rfl, rfl, by decide, rfl⟩

/-! ## Segments -/

theorem headD_append (xs ys : List Ptr) (a : Ptr) :
    (xs ++ ys).headD a = xs.headD (ys.headD a) := by
  cases xs <;> rfl

/-- A segment over `xs ++ ys` is a segment over `xs` that leads into `ys` and a
segment over `ys` that comes from `xs`. -/
theorem Seg_append (node : Ptr → ListNode) (xs ys : List Ptr) (a : Ptr) :
    ∀ b, Seg node b (xs ++ ys) a ↔
      Seg node b xs (ys.headD a) ∧ Seg node (xs.getLastD b) ys a := by
  induction xs with
  | nil => intro b; simp [Seg]
  | cons x t ih =>
    intro b
    show (x ≠ NULL ∧ (node x).prev = b ∧ (node x).next = (t ++ ys).headD a ∧
        Seg node x (t ++ ys) a) ↔
      (x ≠ NULL ∧ (node x).prev = b ∧ (node x).next = t.headD (ys.headD a) ∧
        Seg node x t (ys.headD a)) ∧ Seg node ((x :: t).getLastD b) ys a
    rw [ih x, headD_append, List.getLastD_cons]
    tauto

/-- Every node of a segment is non-null. -/
theorem Seg_nonnull (node : Ptr → ListNode) (xs : List Ptr) (a : Ptr) :
    ∀ b, Seg node b xs a → ∀ x ∈ xs, x ≠ NULL := by
  induction xs with
  | nil => intro b _ x hx; simp at hx
  | cons y t ih =>
    intro b h x hx
    obtain ⟨h1, _, _, h4⟩ := h
    rcases List.mem_cons.mp hx with rfl | hx
    · exact h1
    · exact ih y h4 x hx

/-- A segment only depends on the links of its own nodes. -/
theorem Seg_frame (node node1 : Ptr → ListNode) (xs : List Ptr) (a : Ptr) :
    ∀ b, (∀ x ∈ xs, node1 x = node x) → Seg node b xs a → Seg node1 b xs a := by
  induction xs with
  | nil => intro b _ _; trivial
  | cons y t ih =>
    intro b hs h
    obtain ⟨h1, h2, h3, h4⟩ := h
    have hy := hs y (List.mem_cons_self y t)
    refine ⟨h1, by rw [hy]; exact h2, by rw [hy]; exact h3, ?_⟩
    exact ih y (fun x hx => hs x (List.mem_cons_of_mem y hx)) h4

/-- Redirecting the `next` link of the last node of a segment: the segment
then leads to the new target. -/
theorem Seg_set_after (node node1 : Ptr → ListNode) (xs : List Ptr) (a a1 : Ptr) :
    ∀ b, xs.Nodup → Seg node b xs a →
      (∀ x ∈ xs, (node1 x).prev = (node x).prev) →
      (∀ x ∈ xs, xs.getLast? ≠ some x → (node1 x).next = (node x).next) →
      (∀ x, xs.getLast? = some x → (node1 x).next = a1) →
      Seg node1 b xs a1 := by
  induction xs with
  | nil => intro b _ _ _ _ _; trivial
  | cons y t ih =>
    intro b hnd h hp hn hl
    obtain ⟨h1, h2, h3, h4⟩ := h
    have hyt : y ∉ t := (List.nodup_cons.mp hnd).1
    have hndt : t.Nodup := (List.nodup_cons.mp hnd).2
    cases t with
    | nil =>
      refine ⟨h1, ?_, ?_, trivial⟩
      · rw [hp y (List.mem_cons_self _ _)]; exact h2
      · exact hl y rfl
    | cons z t2 =>
      refine ⟨h1, ?_, ?_, ?_⟩
      · rw [hp y (List.mem_cons_self _ _)]; exact h2
      · rw [hn y (List.mem_cons_self _ _) ?_]
        · exact h3
        · intro hlast
          rw [List.getLast?_cons_cons] at hlast
          exact hyt (List.mem_of_getLast?_eq_some hlast)
      · refine ih y hndt h4 (fun x hx => hp x (List.mem_cons_of_mem y hx)) ?_ ?_
        · intro x hx hne
          exact hn x (List.mem_cons_of_mem y hx) (by rw [List.getLast?_cons_cons]; exact hne)
        · intro x hx
          exact hl x (by rw [List.getLast?_cons_cons]; exact hx)

/-- Redirecting the `prev` link of the first node of a segment: the segment
then comes from the new origin. -/
theorem Seg_set_before (node node1 : Ptr → ListNode) (xs : List Ptr) (a b b1 : Ptr)
    (hnd : xs.Nodup) (h : Seg node b xs a)
    (hn : ∀ x ∈ xs, (node1 x).next = (node x).next)
    (hp : ∀ x ∈ xs, xs.head? ≠ some x → (node1 x).prev = (node x).prev)
    (hh : ∀ x, xs.head? = some x → (node1 x).prev = b1) :
    Seg node1 b1 xs a := by
  cases xs with
  | nil => trivial
  | cons y t =>
    obtain ⟨h1, h2, h3, h4⟩ := h
    have hyt : y ∉ t := (List.nodup_cons.mp hnd).1
    refine ⟨h1, hh y rfl, ?_, ?_⟩
    · rw [hn y (List.mem_cons_self _ _)]; exact h3
    · refine Seg_frame node node1 t a y ?_ h4
      intro x hx
      have hne : (y :: t).head? ≠ some x := by
        intro he
        simp only [List.head?_cons, Option.some.injEq] at he
        exact hyt (he ▸ hx)
      have e1 := hn x (List.mem_cons_of_mem y hx)
      have e2 := hp x (List.mem_cons_of_mem y hx) hne
      cases hx1 : node1 x
      cases hx2 : node x
      simp_all

/-- Following `next` from the first node of a segment that ends in `NULL`
enumerates the segment, with any fuel that covers its length. -/
theorem nextChain_of_Seg (node : Ptr → ListNode) (xs : List Ptr) :
    ∀ b fuel, Seg node b xs NULL → xs.length ≤ fuel →
      nextChain node fuel (xs.headD NULL) = xs := by
  induction xs with
  | nil =>
    intro b fuel _ _
    cases fuel <;> simp [nextChain]
  | cons y t ih =>
    intro b fuel h hf
    obtain ⟨h1, _, h3, h4⟩ := h
    cases fuel with
    | zero => simp at hf
    | succ k =>
      simp only [List.headD_cons, nextChain, if_neg h1, h3]
      rw [ih y k h4 (by simpa using hf)]

/-- Following `prev` from the last node of a segment that starts at `NULL`
enumerates the segment backwards, with any fuel that covers its length. -/
theorem prevChain_of_Seg (node : Ptr → ListNode) (xs : List Ptr) :
    ∀ a fuel, Seg node NULL xs a → xs.length ≤ fuel →
      prevChain node fuel (xs.getLastD NULL) = xs.reverse := by
  induction xs using List.reverseRecOn with
  | nil =>
    intro a fuel _ _
    cases fuel <;> simp [prevChain]
  | append_singleton t y ih =>
    intro a fuel h hf
    rw [Seg_append] at h
    obtain ⟨h4, h1, h2, _, _⟩ := h
    cases fuel with
    | zero => simp at hf
    | succ k =>
      simp only [List.getLastD_concat, prevChain, if_neg h1, h2, List.reverse_append,
        List.reverse_cons, List.reverse_nil, List.nil_append, List.singleton_append]
      rw [ih y k h4 (by simpa using hf)]

/-! ## Splicing -/

theorem ok_bind {α β : Type} (a : α) (f : α → Except Fault β) :
    (Except.ok a >>= f) = f a := rfl

theorem loadPrev_ok (m : Mem) (p : Ptr) (h : p ≠ NULL) :
    loadPrev m p = .ok (m.node p).prev := by
  unfold loadPrev
  rw [if_neg h]

theorem loadNext_ok (m : Mem) (p : Ptr) (h : p ≠ NULL) :
    loadNext m p = .ok (m.node p).next := by
  unfold loadNext
  rw [if_neg h]

theorem storeNext_ok (m : Mem) (p v : Ptr) (h : p ≠ NULL) :
    storeNext m p v = .ok { m with node := fun q =>
      if q = p then { m.node q with next := v } else m.node q } := by
  unfold storeNext
  rw [if_neg h]

theorem storePrev_ok (m : Mem) (p v : Ptr) (h : p ≠ NULL) :
    storePrev m p v = .ok { m with node := fun q =>
      if q = p then { m.node q with prev := v } else m.node q } := by
  unfold storePrev
  rw [if_neg h]

/-- The fields of a memory whose cursor and cursor index were overwritten. -/
theorem setCursor_fields (m : Mem) (c i : Nat) :
    ∃ m1 : Mem, m1 = { m with list := { m.list with ci := i, cursor := c } } ∧
      m1.list.top = m.list.top ∧ m1.list.bot = m.list.bot ∧ m1.list.cursor = c ∧
      m1.list.len = m.list.len ∧ m1.list.ci = i ∧ m1.node = m.node :=
  ⟨_, rfl, rfl, rfl, rfl, rfl, rfl, rfl⟩

/-- The fields of a memory whose length was overwritten. -/
theorem setLen_fields (m : Mem) (v : Nat) :
    ∃ m1 : Mem, m1 = { m with list := { m.list with len := v } } ∧
      m1.list.len = v ∧ m1.list.top = m.list.top ∧ m1.list.bot = m.list.bot ∧
      m1.list.cursor = m.list.cursor ∧ m1.list.ci = m.list.ci ∧ m1.node = m.node :=
  ⟨_, rfl, rfl, rfl, rfl, rfl, rfl, rfl⟩

/-- The cursor block of `llist_splice` on a non-null node that has a
neighbour: a cursor on the node moves to the predecessor (`ci - 1`) or,
failing that, to the successor (`ci + 1`); nothing else is written. -/
theorem spliceCursor_eval (m : Mem) (node : Ptr) (hn : node ≠ NULL)
    (hc : (m.node node).prev ≠ NULL ∨ (m.node node).next ≠ NULL) :
    ∃ mc, spliceCursor m node = .ok mc ∧
      mc.list.top = m.list.top ∧ mc.list.bot = m.list.bot ∧
      mc.list.cursor = (if m.list.cursor = node then
          (if (m.node node).prev = NULL then (m.node node).next else (m.node node).prev)
          else m.list.cursor) ∧
      mc.list.len = m.list.len ∧
      mc.list.ci = (if m.list.cursor = node then
          (if (m.node node).prev = NULL then (m.list.ci + 1) % U32
            else (m.list.ci + U32 - 1) % U32)
          else m.list.ci) ∧ mc.node = m.node := by
  by_cases h3 : m.list.cursor = node
  · rw [if_pos h3, if_pos h3]
    by_cases h1 : (m.node node).prev = NULL
    · have h2 : (m.node node).next ≠ NULL := by
        rcases hc with h | h
        · exact absurd h1 h
        · exact h
      rw [if_pos h1, if_pos h1]
      obtain ⟨mc, hmc, ctop, cbot, ccur, clen, cci, nc⟩ :=
        setCursor_fields m (m.node node).next ((m.list.ci + 1) % U32)
      refine ⟨mc, ?_, ctop, cbot, ccur, clen, cci, nc⟩
      rw [hmc]
      unfold spliceCursor
      rw [if_pos h3, loadPrev_ok m node hn, ok_bind, if_neg (not_not.mpr h1),
        loadNext_ok m node hn, ok_bind, if_pos h2]
    · rw [if_neg h1, if_neg h1]
      obtain ⟨mc, hmc, ctop, cbot, ccur, clen, cci, nc⟩ :=
        setCursor_fields m (m.node node).prev ((m.list.ci + U32 - 1) % U32)
      refine ⟨mc, ?_, ctop, cbot, ccur, clen, cci, nc⟩
      rw [hmc]
      unfold spliceCursor
      rw [if_pos h3, loadPrev_ok m node hn, ok_bind, if_pos h1]
  · rw [if_neg h3, if_neg h3]
    refine ⟨m, ?_, rfl, rfl, rfl, rfl, rfl, rfl⟩
    unfold spliceCursor
    rw [if_neg h3]

/-- The front repair of `llist_splice` on a non-null node. -/
theorem spliceTop_eval (m : Mem) (node : Ptr) (hn : node ≠ NULL) :
    ∃ m1, spliceTop m node = .ok m1 ∧
      m1.list.top = (if (m.node node).prev = NULL then (m.node node).next else m.list.top) ∧
      m1.list.bot = m.list.bot ∧ m1.list.cursor = m.list.cursor ∧
      m1.list.len = m.list.len ∧ m1.list.ci = m.list.ci ∧
      ∀ q, m1.node q = if q ≠ NULL ∧ q = (m.node node).prev
        then { m.node q with next := (m.node node).next } else m.node q := by
  unfold spliceTop
  rw [loadPrev_ok m node hn, ok_bind, loadNext_ok m node hn]
  by_cases h1 : (m.node node).prev = NULL
  · rw [if_neg (not_not.mpr h1), if_pos h1]
    refine ⟨_, rfl, rfl, rfl, rfl, rfl, rfl, ?_⟩
    intro q
    have : ¬ (q ≠ NULL ∧ q = (m.node node).prev) := fun h => h.1 (h.2.trans h1)
    rw [if_neg this]
  · rw [if_pos h1, ok_bind, storeNext_ok _ _ _ h1, if_neg h1]
    refine ⟨_, rfl, rfl, rfl, rfl, rfl, rfl, ?_⟩
    intro q
    by_cases hq : q = (m.node node).prev
    · have : q ≠ NULL ∧ q = (m.node node).prev := ⟨hq ▸ h1, hq⟩
      rw [if_pos this]
      show (if q = (m.node node).prev then _ else _) = _
      rw [if_pos hq]
    · have : ¬ (q ≠ NULL ∧ q = (m.node node).prev) := fun h => hq h.2
      rw [if_neg this]
      show (if q = (m.node node).prev then _ else _) = _
      rw [if_neg hq]

/-- The back repair of `llist_splice` on a non-null node. -/
theorem spliceBot_eval (m : Mem) (node : Ptr) (hn : node ≠ NULL) :
    ∃ m1, spliceBot m node = .ok m1 ∧
      m1.list.top = m.list.top ∧
      m1.list.bot = (if (m.node node).next = NULL then (m.node node).prev else m.list.bot) ∧
      m1.list.cursor = m.list.cursor ∧ m1.list.len = m.list.len ∧ m1.list.ci = m.list.ci ∧
      ∀ q, m1.node q = if q ≠ NULL ∧ q = (m.node node).next
        then { m.node q with prev := (m.node node).prev } else m.node q := by
  unfold spliceBot
  rw [loadNext_ok m node hn, ok_bind, loadPrev_ok m node hn]
  by_cases h1 : (m.node node).next = NULL
  · rw [if_neg (not_not.mpr h1), if_pos h1]
    refine ⟨_, rfl, rfl, rfl, rfl, rfl, rfl, ?_⟩
    intro q
    have : ¬ (q ≠ NULL ∧ q = (m.node node).next) := fun h => h.1 (h.2.trans h1)
    rw [if_neg this]
  · rw [if_pos h1, ok_bind, storePrev_ok _ _ _ h1, if_neg h1]
    refine ⟨_, rfl, rfl, rfl, rfl, rfl, rfl, ?_⟩
    intro q
    by_cases hq : q = (m.node node).next
    · have : q ≠ NULL ∧ q = (m.node node).next := ⟨hq ▸ h1, hq⟩
      rw [if_pos this]
      show (if q = (m.node node).next then _ else _) = _
      rw [if_pos hq]
    · have : ¬ (q ≠ NULL ∧ q = (m.node node).next) := fun h => hq h.2
      rw [if_neg this]
      show (if q = (m.node node).next then _ else _) = _
      rw [if_neg hq]

/-- What `llist_splice` does to a non-null node that has a neighbour and is not
its own predecessor: it returns, `len` is decremented, the predecessor's
`next` (or `top`) takes the node's `next`, the successor's `prev` (or `bot`)
takes the node's `prev`, and a cursor on the node moves to the predecessor
(`ci - 1`) or, failing that, to the successor (`ci + 1`). -/
theorem llist_splice_eval (m : Mem) (node : Ptr) (hn : node ≠ NULL)
    (hp : (m.node node).prev ≠ node)
    (hc : (m.node node).prev ≠ NULL ∨ (m.node node).next ≠ NULL) :
    ∃ m1, llist_splice m node = .ok m1 ∧
      m1.list.len = (m.list.len + U32 - 1) % U32 ∧
      m1.list.top = (if (m.node node).prev = NULL then (m.node node).next else m.list.top) ∧
      m1.list.bot = (if (m.node node).next = NULL then (m.node node).prev else m.list.bot) ∧
      m1.list.cursor = (if m.list.cursor = node then
        (if (m.node node).prev = NULL then (m.node node).next else (m.node node).prev)
        else m.list.cursor) ∧
      m1.list.ci = (if m.list.cursor = node then
        (if (m.node node).prev = NULL then (m.list.ci + 1) % U32
          else (m.list.ci + U32 - 1) % U32)
        else m.list.ci) ∧
      (∀ q, (m1.node q).next =
        if q ≠ NULL ∧ q = (m.node node).prev then (m.node node).next else (m.node q).next) ∧
      (∀ q, (m1.node q).prev =
        if q ≠ NULL ∧ q = (m.node node).next then (m.node node).prev else (m.node q).prev) := by
  have hp1 : ¬ (node ≠ NULL ∧ node = (m.node node).prev) := fun h => hp h.2.symm
  obtain ⟨mc, ec, ctop, cbot, ccur, clen, cci, nc⟩ : ∃ mc, spliceCursor m node = .ok mc ∧
      mc.list.top = m.list.top ∧ mc.list.bot = m.list.bot ∧
      mc.list.cursor = (if m.list.cursor = node then
          (if (m.node node).prev = NULL then (m.node node).next else (m.node node).prev)
          else m.list.cursor) ∧
      mc.list.len = m.list.len ∧
      mc.list.ci = (if m.list.cursor = node then
          (if (m.node node).prev = NULL then (m.list.ci + 1) % U32
            else (m.list.ci + U32 - 1) % U32)
          else m.list.ci) ∧ mc.node = m.node :=
    spliceCursor_eval m node hn hc
  obtain ⟨m2, e2, ttop, tbot, tcur, tlen, tci, n2⟩ := spliceTop_eval mc node hn
  obtain ⟨m3, e3, btop, bbot, bcur, blen, bci, n3⟩ := spliceBot_eval m2 node hn
  rw [nc] at ttop n2
  have hnode : m2.node node = m.node node := by
    rw [n2 node]
    exact if_neg hp1
  rw [hnode] at bbot n3
  obtain ⟨m4, hm4, flen, ftop, fbot, fcur, fci, n4⟩ :=
    setLen_fields m3 ((m3.list.len + U32 - 1) % U32)
  have e4 : llist_splice m node = .ok m4 := by
    rw [hm4]
    unfold llist_splice
    rw [ec, ok_bind, e2, ok_bind, e3, ok_bind]
  refine ⟨m4, e4, ?_, ?_, ?_, ?_, ?_, ?_, ?_⟩
  · rw [flen, blen, tlen, clen]
  · rw [ftop, btop, ttop, ctop]
  · rw [fbot, bbot, tbot, cbot]
  · rw [fcur, bcur, tcur, ccur]
  · rw [fci, bci, tci, cci]
  · intro q
    rw [n4]
    have e : (m3.node q).next = (m2.node q).next := by
      rw [n3 q]
      split <;> rfl
    rw [e, n2 q]
    split <;> rfl
  · intro q
    rw [n4]
    have e : (m2.node q).prev = (m.node q).prev := by
      rw [n2 q]
      split <;> rfl
    rw [n3 q]
    split
    · rfl
    · exact e

theorem head?_of_ne_nil (xs : List Ptr) (d : Ptr) (h : xs ≠ []) :
    xs.head? = some (xs.headD d) := by
  cases xs with
  | nil => exact absurd rfl h
  | cons a t => rfl

theorem getLast?_of_ne_nil (xs : List Ptr) (d : Ptr) (h : xs ≠ []) :
    xs.getLast? = some (xs.getLastD d) := by
  rw [List.getLastD_eq_getLast?]
  cases hl : xs.getLast? with
  | none => exact absurd (List.getLast?_eq_none_iff.mp hl) h
  | some a => rfl

theorem headD_mem (xs : List Ptr) (d : Ptr) (h : xs ≠ []) : xs.headD d ∈ xs :=
  List.mem_of_mem_head? (head?_of_ne_nil xs d h)

theorem getLastD_mem (xs : List Ptr) (d : Ptr) (h : xs ≠ []) : xs.getLastD d ∈ xs :=
  List.mem_of_getLast?_eq_some (getLast?_of_ne_nil xs d h)

theorem getLastD_append (xs ys : List Ptr) (d : Ptr) :
    (xs ++ ys).getLastD d = ys.getLastD (xs.getLastD d) := by
  induction xs generalizing d with
  | nil => rfl
  | cons a t ih => simp only [List.cons_append, List.getLastD_cons, ih]

theorem getLastD_irrel (ys : List Ptr) (a b : Ptr) (h : ys ≠ []) :
    ys.getLastD a = ys.getLastD b := by
  have h1 := getLast?_of_ne_nil ys a h
  have h2 := getLast?_of_ne_nil ys b h
  rw [h1] at h2
  exact Option.some.inj h2

/-- Splicing a node out of a list with at least two nodes: `llist_splice`
returns, the links are those of the sequence without the node, `len` is
decremented, and a cursor that was on the node has moved to its predecessor
(with `ci - 1`) or, for the first node, to its successor (with `ci + 1`). -/
theorem llist_splice_chain (m : Mem) (pre post : List Ptr) (node : Ptr)
    (hch : Chain m (pre ++ node :: post)) (hne : pre ≠ [] ∨ post ≠ []) :
    ∃ m1, llist_splice m node = .ok m1 ∧ Chain m1 (pre ++ post) ∧
      m1.list.len = (m.list.len + U32 - 1) % U32 ∧
      m1.list.cursor = (if m.list.cursor = node then
        (if pre = [] then post.headD NULL else pre.getLastD NULL) else m.list.cursor) ∧
      m1.list.ci = (if m.list.cursor = node then
        (if pre = [] then (m.list.ci + 1) % U32 else (m.list.ci + U32 - 1) % U32)
        else m.list.ci) := by
  obtain ⟨hpre, hmid⟩ := (Seg_append m.node pre (node :: post) NULL NULL).mp hch.seg
  obtain ⟨hn, hprev, hnext, hpost⟩ := hmid
  rw [List.headD_cons] at hpre
  obtain ⟨ndpre, ndmid, hdisj⟩ := List.nodup_append.mp hch.nodup
  have hnpost : node ∉ post := (List.nodup_cons.mp ndmid).1
  have ndpost : post.Nodup := (List.nodup_cons.mp ndmid).2
  have hnpre : node ∉ pre := fun h => hdisj h (List.mem_cons_self _ _)
  have hpp : ∀ x, x ∈ pre → x ∉ post := fun x h1 h2 =>
    hdisj h1 (List.mem_cons_of_mem _ h2)
  have nnpre := Seg_nonnull m.node pre node NULL hpre
  have nnpost := Seg_nonnull m.node post NULL node hpost
  have hpnull : pre.getLastD NULL = NULL ↔ pre = [] := by
    constructor
    · intro h
      by_contra hc
      exact nnpre _ (getLastD_mem pre NULL hc) h
    · intro h
      rw [h]
      rfl
  have hnnull : post.headD NULL = NULL ↔ post = [] := by
    constructor
    · intro h
      by_contra hc
      exact nnpost _ (headD_mem post NULL hc) h
    · intro h
      rw [h]
      rfl
  have hp : (m.node node).prev ≠ node := by
    rw [hprev]
    intro h
    by_cases hc : pre = []
    · rw [hc] at h
      exact hn h.symm
    · exact hnpre (h ▸ getLastD_mem pre NULL hc)
  have hc : (m.node node).prev ≠ NULL ∨ (m.node node).next ≠ NULL := by
    rw [hprev, hnext]
    rcases hne with h | h
    · exact Or.inl (fun e => h (hpnull.mp e))
    · exact Or.inr (fun e => h (hnnull.mp e))
  obtain ⟨m1, e1, flen, ftop, fbot, fcur, fci, fnext, fprev⟩ :=
    llist_splice_eval m node hn hp hc
  simp only [hprev, hnext] at ftop fbot fcur fci fnext fprev
  refine ⟨m1, e1, ⟨?_, ?_, ?_, ?_⟩, flen, ?_, ?_⟩
  · exact List.nodup_append.mpr ⟨ndpre, ndpost, fun a h1 h2 => hpp a h1 h2⟩
  · refine (Seg_append m1.node pre post NULL NULL).mpr ⟨?_, ?_⟩
    · refine Seg_set_after m.node m1.node pre node (post.headD NULL) NULL ndpre hpre ?_ ?_ ?_
      · intro x hx
        rw [fprev x]
        refine if_neg ?_
        rintro ⟨h1, h2⟩
        by_cases hc : post = []
        · exact h1 (h2.trans (hnnull.mpr hc))
        · exact hpp x hx (h2 ▸ headD_mem post NULL hc)
      · intro x hx hl
        rw [fnext x]
        refine if_neg ?_
        rintro ⟨_, h2⟩
        exact hl (h2 ▸ getLast?_of_ne_nil pre NULL (List.ne_nil_of_mem hx))
      · intro x hx
        have hx1 : x ∈ pre := List.mem_of_getLast?_eq_some hx
        have hx2 : x = pre.getLastD NULL := by
          have := getLast?_of_ne_nil pre NULL (List.ne_nil_of_mem hx1)
          rw [hx] at this
          exact Option.some.inj this
        rw [fnext x]
        exact if_pos ⟨nnpre x hx1, hx2⟩
    · refine Seg_set_before m.node m1.node post NULL node (pre.getLastD NULL) ndpost hpost
        ?_ ?_ ?_
      · intro x hx
        rw [fnext x]
        refine if_neg ?_
        rintro ⟨h1, h2⟩
        by_cases hc : pre = []
        · exact h1 (h2.trans (hpnull.mpr hc))
        · exact hpp x (h2 ▸ getLastD_mem pre NULL hc) hx
      · intro x hx hl
        rw [fprev x]
        refine if_neg ?_
        rintro ⟨_, h2⟩
        exact hl (h2 ▸ head?_of_ne_nil post NULL (List.ne_nil_of_mem hx))
      · intro x hx
        have hx1 : x ∈ post := List.mem_of_mem_head? hx
        have hx2 : x = post.headD NULL := by
          have := head?_of_ne_nil post NULL (List.ne_nil_of_mem hx1)
          rw [hx] at this
          exact Option.some.inj this
        rw [fprev x]
        exact if_pos ⟨nnpost x hx1, hx2⟩
  · rw [ftop, headD_append]
    by_cases hc : pre = []
    · rw [if_pos (hpnull.mpr hc), hc]
      rfl
    · rw [if_neg (fun e => hc (hpnull.mp e)), hch.top_eq, headD_append]
      cases pre with
      | nil => exact absurd rfl hc
      | cons a t => rfl
  · rw [fbot, getLastD_append]
    by_cases hc : post = []
    · rw [if_pos (hnnull.mpr hc), hc]
      rfl
    · rw [if_neg (fun e => hc (hnnull.mp e)), hch.bot_eq, getLastD_append, List.getLastD_cons]
      exact getLastD_irrel post _ _ hc
  · rw [fcur]
    by_cases hc : pre = []
    · rw [if_pos (hpnull.mpr hc), if_pos hc]
    · rw [if_neg (fun e => hc (hpnull.mp e)), if_neg hc]
  · rw [fci]
    by_cases hc : pre = []
    · rw [if_pos (hpnull.mpr hc), if_pos hc]
    · rw [if_neg (fun e => hc (hpnull.mp e)), if_neg hc]

/-- C10: for every well-formed list of length at least 2 and every node in it,
`llist_splice(list, node)` returns, and afterwards the links are those of the
old sequence with the node removed: following `next` from `top` enumerates
that sequence, following `prev` from `bot` enumerates its reverse (with any
fuel that covers the old length), `top` and `bot` are its first and last node,
and `len` is the old `len` minus 1. -/
theorem splice_removes_node (m : Mem) (ns : List Ptr) (node : Ptr)
    (hwf : WellFormed m ns) (hlen : 2 ≤ m.list.len) (hmem : node ∈ ns) :
    ∃ m1, llist_splice m node = .ok m1 ∧
      Chain m1 (ns.erase node) ∧
      (∀ fuel, ns.length ≤ fuel →
        nextChain m1.node fuel m1.list.top = ns.erase node) ∧
      (∀ fuel, ns.length ≤ fuel →
        prevChain m1.node fuel m1.list.bot = (ns.erase node).reverse) ∧
      (ns.erase node).head? = some m1.list.top ∧
      (ns.erase node).getLast? = some m1.list.bot ∧
      m1.list.len = m.list.len - 1 := by
  obtain ⟨pre, post, rfl⟩ := List.append_of_mem hmem
  have hl := hwf.len_eq
  have hlt := hwf.len_lt
  rw [List.length_append, List.length_cons] at hl hlt
  have hne : pre ≠ [] ∨ post ≠ [] := by
    by_contra hc
    push_neg at hc
    rw [hc.1, hc.2] at hl
    simp at hl
    omega
  have hnpre : node ∉ pre := fun h =>
    (List.nodup_append.mp hwf.nodup).2.2 h (List.mem_cons_self _ _)
  have herase : (pre ++ node :: post).erase node = pre ++ post := by
    rw [List.erase_append_right _ hnpre, List.erase_cons_head]
  have hne2 : pre ++ post ≠ [] := by
    intro h
    rcases List.append_eq_nil.mp h with ⟨h1, h2⟩
    rcases hne with h | h
    · exact h h1
    · exact h h2
  obtain ⟨m1, e1, hch, flen, _, _⟩ := llist_splice_chain m pre post node hwf.toChain hne
  rw [herase]
  refine ⟨m1, e1, hch, ?_, ?_, ?_, ?_, ?_⟩
  · intro fuel hf
    rw [hch.top_eq]
    refine nextChain_of_Seg m1.node (pre ++ post) NULL fuel hch.seg ?_
    rw [List.length_append, List.length_cons] at hf
    rw [List.length_append]
    omega
  · intro fuel hf
    rw [hch.bot_eq]
    refine prevChain_of_Seg m1.node (pre ++ post) NULL fuel hch.seg ?_
    rw [List.length_append, List.length_cons] at hf
    rw [List.length_append]
    omega
  · rw [hch.top_eq]
    exact head?_of_ne_nil _ NULL hne2
  · rw [hch.bot_eq]
    exact getLast?_of_ne_nil _ NULL hne2
  · rw [flen]
    simp only [U32] at *
    omega

/-- C10, at a concrete input: the middle node of the list `[1, 2, 3]`. -/
theorem splice_removes_node_witness :
    ∃ m1, llist_splice exThree 2 = .ok m1 ∧
      Chain m1 ([1, 2, 3].erase 2) ∧
      (∀ fuel, [1, 2, 3].length ≤ fuel →
        nextChain m1.node fuel m1.list.top = [1, 2, 3].erase 2) ∧
      (∀ fuel, [1, 2, 3].length ≤ fuel →
        prevChain m1.node fuel m1.list.bot = ([1, 2, 3].erase 2).reverse) ∧
      ([1, 2, 3].erase 2).head? = some m1.list.top ∧
      ([1, 2, 3].erase 2).getLast? = some m1.list.bot ∧
      m1.list.len = exThree.list.len - 1 :=
  splice_removes_node exThree [1, 2, 3] 2 wf_exThree (by decide) (by decide)

/-! ## Splicing and the cursor -/

/-- C11 (evaluation at the failing input): splicing the only node of the
well-formed one-node list `[1]` returns with `top`, `bot` and `cursor` all
`NULL`, and `len` is `4294967295`, not `0`: the decrement of line 288 runs
after `list_init` has already set `len` to `0`. -/
theorem splice_sole_node_len :
    WellFormed exOne [1] ∧ exOne.list.len = 1 ∧
      ∃ m1, llist_splice exOne 1 = .ok m1 ∧ m1.list.top = NULL ∧ m1.list.bot = NULL ∧
        m1.list.cursor = NULL ∧ m1.list.len = 4294967295 :=
  ⟨wf_exOne, rfl, _, rfl, rfl, rfl, rfl, rfl⟩

/-- C12 (evaluation at the failing inputs): on the well-formed list `[1, 2, 3]`
with the cursor on its last node (`ci = 2`), splicing the first node leaves the
cursor on node `3`, now at position `1` of `[2, 3]`, with `ci` still `2`, which
is not below the new `len = 2`; and with the cursor on the first node
(`ci = 0`), splicing that node moves the cursor to node `2`, at position `0` of
`[2, 3]`, with `ci = 1`, the position of node `3`. -/
theorem splice_cursor_index_stale :
    (WellFormed exThreeLast [1, 2, 3] ∧ 1 ∈ [1, 2, 3] ∧
      ∃ m1, llist_splice exThreeLast 1 = .ok m1 ∧
        nextChain m1.node 3 m1.list.top = [2, 3] ∧ m1.list.cursor = 3 ∧
        m1.list.ci = 2 ∧ m1.list.len = 2 ∧ ¬ m1.list.ci < m1.list.len) ∧
    (WellFormed exThree [1, 2, 3] ∧
      ∃ m1, llist_splice exThree 1 = .ok m1 ∧
        nextChain m1.node 3 m1.list.top = [2, 3] ∧ m1.list.cursor = 2 ∧
        m1.list.ci = 1 ∧ [2, 3][m1.list.ci]? = some 3) :=
  ⟨⟨wf_exThreeLast, by decide, _, rfl, by decide, rfl, rfl, rfl, by decide⟩,
    ⟨wf_exThree, _, rfl, by decide, rfl, rfl, by decide⟩⟩

/-- C20 (evaluation at the failing input): node `2`, spliced out of the
well-formed list `[1, 2, 3]`, keeps `next = 3` and `prev = 1`; appending or
prepending it to the list after `list_init` makes it `top`, `bot` and `cursor`
and writes none of its links, so following `next` from `top` gives `[2, 3]`
and following `prev` from `bot` gives `[2, 1]`. -/
theorem reinsert_keeps_stale_links :
    WellFormed exThree [1, 2, 3] ∧
      ∃ m1, llist_splice exThree 2 = .ok m1 ∧
        (m1.node 2).next = 3 ∧ (m1.node 2).prev = 1 ∧
        (∃ m2, list_append (list_init m1) 2 = .ok m2 ∧ m2.list.top = 2 ∧
          m2.list.bot = 2 ∧ (m2.node 2).next = 3 ∧ (m2.node 2).prev = 1 ∧
          nextChain m2.node 4 m2.list.top = [2, 3] ∧
          prevChain m2.node 4 m2.list.bot = [2, 1]) ∧
        (∃ m2, list_prepend (list_init m1) 2 = .ok m2 ∧ m2.list.top = 2 ∧
          m2.list.bot = 2 ∧ (m2.node 2).next = 3 ∧ (m2.node 2).prev = 1 ∧
          nextChain m2.node 4 m2.list.top = [2, 3] ∧
          prevChain m2.node 4 m2.list.bot = [2, 1]) :=
  ⟨wf_exThree, _, rfl, rfl, rfl,
    ⟨_, rfl, rfl, rfl, rfl, rfl, by decide, by decide⟩,
    ⟨_, rfl, rfl, rfl, rfl, rfl, by decide, by decide⟩⟩

/-! ## The walk of the index resolution -/

theorem wf_exFourSecond : WellFormed exFourSecond [1, 2, 3, 4] := by
  refine ⟨⟨by decide, ?_, rfl, rfl⟩, rfl, by decide, Or.inr ⟨by decide, rfl⟩⟩
  simp [Seg, exFourSecond, heapOf]

theorem wf_exFourThird : WellFormed exFourThird [1, 2, 3, 4] := by
  refine ⟨⟨by decide, ?_, rfl, rfl⟩, rfl, by decide, Or.inr ⟨by decide, rfl⟩⟩
  simp [Seg, exFourThird, heapOf]

theorem wf_exFourLast : WellFormed exFourLast [1, 2, 3, 4] := by
  refine ⟨⟨by decide, ?_, rfl, rfl⟩, rfl, by decide, Or.inr ⟨by decide, rfl⟩⟩
  simp [Seg, exFourLast, heapOf]

/-- The sign-normalised cursor distance of lines 144-156 is negative for every
pair of distinct `unsigned int` indices. -/
theorem normalise_neg (i ci : Nat) (hi : i < U32) (hci : ci < U32) (hne : i ≠ ci) :
    normalise (cursorDir (cursorDelta i ci)) (cursorDelta i ci) < 0 := by
  have hpos : 0 < (i + U32 - ci) % U32 := by
    simp only [U32] at *
    omega
  have hd : cursorDelta i ci > 0 := by
    unfold cursorDelta
    exact_mod_cast hpos
  simp only [cursorDir, hd, if_true, normalise, Dir.isZero]
  omega

/-- C13 (evaluation at the failing inputs): on the well-formed list
`[1, 2, 3, 4]`, resolving index `1` right after index `2` (cursor on node `3`,
`ci = 2`) walks forward, away from the target, through node `4` to `NULL` and
reads `NULL->next`; resolving index `2` right after index `1` (cursor on node
`2`, `ci = 1`) passes the target node `3` without stopping and faults the same
way.  Neither call returns, whatever the fuel. -/
theorem get_node_neighbour_faults :
    (WellFormed exFourThird [1, 2, 3, 4] ∧ exFourThird.list.ci = 1 + 1 ∧
      (∀ fuel, llist_get_node (fuel + 3) exFourThird 1 = .error .nullDeref) ∧
      ¬ ∃ fuel r, llist_get_node fuel exFourThird 1 = .ok r) ∧
    (WellFormed exFourSecond [1, 2, 3, 4] ∧ exFourSecond.list.ci = 2 - 1 ∧
      (∀ fuel, llist_get_node (fuel + 4) exFourSecond 2 = .error .nullDeref) ∧
      ¬ ∃ fuel r, llist_get_node fuel exFourSecond 2 = .ok r) := by
  refine ⟨⟨wf_exFourThird, rfl, ?_, ?_⟩, ⟨wf_exFourSecond, rfl, ?_, ?_⟩⟩
  · intro fuel
    simp [llist_get_node, exFourThird, chooseAnchor, cursorDelta, botDelta, cursorDir,
      normalise, Dir.isZero, walkNext, heapOf]
    rfl
  · rintro ⟨fuel, r, h⟩
    exact llist_get_node_slow_never_ok fuel exFourThird 1 (by decide) (by decide)
      (by decide) (by decide) (by decide) (by decide) r h
  · intro fuel
    simp [llist_get_node, exFourSecond, chooseAnchor, cursorDelta, botDelta, cursorDir,
      normalise, Dir.isZero, walkNext, heapOf]
    rfl
  · rintro ⟨fuel, r, h⟩
    exact llist_get_node_slow_never_ok fuel exFourSecond 2 (by decide) (by decide)
      (by decide) (by decide) (by decide) (by decide) r h

/-- C15 (evaluation at the failing input): on the well-formed list `[1, 2, 3]`
with the cursor at index `0`, the walk of `llist_get_node(list, 1)` starts at
the cursor with the step counter `-1`; the counter goes `-1, -2, -3, -4` and
never reaches `0`, and the fourth iteration follows `next` from `NULL`. -/
theorem walk_counter_negative :
    WellFormed exThree [1, 2, 3] ∧ 1 < exThree.list.len ∧
      chooseAnchor exThree.list 1 = (exThree.list.cursor, -1, Dir.FORWARD) ∧
      walkNext exThree.node 3 exThree.list.cursor (-1) = .error .outOfFuel ∧
      (∀ fuel, walkNext exThree.node (fuel + 4) exThree.list.cursor (-1) =
        .error .nullDeref) ∧
      ¬ ∃ fuel p, walkNext exThree.node fuel exThree.list.cursor (-1) = .ok p := by
  refine ⟨wf_exThree, by decide, by decide, rfl, ?_, ?_⟩
  · intro fuel
    simp [exThree, walkNext, heapOf]
  · rintro ⟨fuel, p, h⟩
    exact walkNext_neg exThree.node fuel _ (-1) (by decide) p h

/-- C16 (evaluation at the failing input): on the well-formed list
`[1, 2, 3, 4]` with the cursor on its last node (`ci = 3`), index `1` misses
the three fast paths and is nearer to `top` (distance `1`) than to the cursor
(distance `2`), yet the anchor chosen on lines 158-171 is the cursor, with the
step count `-4294967294` and direction `FORWARD`. -/
theorem anchor_is_cursor :
    WellFormed exFourLast [1, 2, 3, 4] ∧ 1 < exFourLast.list.len ∧
      1 ≠ exFourLast.list.ci ∧ 1 ≠ exFourLast.list.len - 1 ∧
      ¬ (exFourLast.list.ci - 1 ≤ 1) ∧ 1 ≤ exFourLast.list.len - 1 - 1 ∧
      chooseAnchor exFourLast.list 1 =
        (exFourLast.list.cursor, -4294967294, Dir.FORWARD) ∧
      exFourLast.list.cursor ≠ exFourLast.list.top :=
  ⟨wf_exFourLast, by decide, by decide, by decide, by decide, by decide, by decide,
    by decide⟩

/-- C17 (evaluation at the failing inputs): for `i = 1`, `ci = 0` the
sign-normalised cursor distance is `-1`, not `1`; for `i = 0`, `ci = 1` the
unsigned difference is `4294967295` and the normalised distance is
`-4294967295`, not `1`. -/
theorem cursor_distance_negative :
    cursorDelta 1 0 = 1 ∧ cursorDir (cursorDelta 1 0) = Dir.FORWARD ∧
      normalise (cursorDir (cursorDelta 1 0)) (cursorDelta 1 0) = -1 ∧
      cursorDelta 0 1 = 4294967295 ∧ cursorDir (cursorDelta 0 1) = Dir.FORWARD ∧
      normalise (cursorDir (cursorDelta 0 1)) (cursorDelta 0 1) = -4294967295 :=
  ⟨by decide, by decide, by decide, by decide, by decide, by decide⟩

/-- C18 (evaluation at the failing input): for `len = 3` and `i = 1` the
distance from the bottom computed on line 145 is `2`, not `3 - 1 - 1 = 1`, and
walking that many `prev` links from `bot` of the well-formed list `[1, 2, 3]`
lands on node `1`, at position `0`, not on node `2`, at position `1`. -/
theorem bot_distance_off_by_one :
    WellFormed exThree [1, 2, 3] ∧ botDelta exThree.list.len 1 = 2 ∧
      walkPrev exThree.node 2 exThree.list.bot (botDelta exThree.list.len 1) = .ok 1 ∧
      [1, 2, 3][1]? = some 2 ∧ [1, 2, 3][0]? = some 1 :=
  ⟨wf_exThree, by decide, rfl, by decide, by decide⟩

/-! ## Teardown -/

/-- On a non-empty doubly-linked prefix whose last node is `bot`, the loop of
`list_cleanup` never leaves through its exit test: once `bot` has stepped back
over the first node it is `NULL`, and the argument of `free` is read through
it. -/
theorem cleanupLoop_faults (xs : List Ptr) :
    ∀ (m : Mem) (a : Ptr) (fuel : Nat), Seg m.node NULL xs a → xs ≠ [] →
      m.list.bot = xs.getLastD NULL →
      (∀ r, cleanupLoop fuel m ≠ .ok r) ∧
        (xs.length ≤ fuel → cleanupLoop fuel m = .error .nullDeref) := by
  induction xs using List.reverseRecOn with
  | nil => intro m a fuel _ h; exact absurd rfl h
  | append_singleton t y ih =>
    intro m a fuel hseg _ hbot
    rw [List.getLastD_concat] at hbot
    rw [Seg_append] at hseg
    obtain ⟨ht, hy, hprev, _, _⟩ := hseg
    have hb : ¬ m.list.bot = NULL := by
      rw [hbot]
      exact hy
    cases fuel with
    | zero =>
      constructor
      · intro r
        simp [cleanupLoop, hb]
      · intro hl
        simp at hl
    | succ k =>
      have hstep : cleanupLoop (k + 1) m =
          (loadNext { m with list := { m.list with bot := t.getLastD NULL } }
            (t.getLastD NULL) >>= fun _ =>
              cleanupLoop k { m with list := { m.list with bot := t.getLastD NULL } }) := by
        rw [cleanupLoop, if_neg hb, hbot, loadPrev_ok m y hy, ok_bind, hprev]
      rw [hstep]
      by_cases hte : t = []
      · have hnull : t.getLastD NULL = NULL := by
          rw [hte]
          rfl
        have hl : loadNext { m with list := { m.list with bot := t.getLastD NULL } }
            (t.getLastD NULL) = .error .nullDeref := by
          rw [hnull]
          rfl
        rw [hl]
        exact ⟨fun r h => (by cases h), fun _ => rfl⟩
      · have hnn : t.getLastD NULL ≠ NULL :=
          Seg_nonnull m.node t y NULL ht _ (getLastD_mem t NULL hte)
        rw [loadNext_ok _ _ hnn, ok_bind]
        obtain ⟨h1, h2⟩ := ih { m with list := { m.list with bot := t.getLastD NULL } }
          y k ht hte rfl
        refine ⟨h1, fun hl => h2 ?_⟩
        rw [List.length_append, List.length_singleton] at hl
        omega

/-- On every well-formed non-empty list `list_cleanup` reads a field of a
`NULL` node: it returns for no fuel, and with fuel for as many iterations as
the list has nodes the run ends in that read. -/
theorem list_cleanup_nonempty_faults (m : Mem) (ns : List Ptr) (fuel : Nat)
    (hwf : WellFormed m ns) (hne : ns ≠ []) :
    (∀ r, list_cleanup fuel m ≠ .ok r) ∧
      (ns.length ≤ fuel → list_cleanup fuel m = .error .nullDeref) := by
  obtain ⟨h1, h2⟩ := cleanupLoop_faults ns m NULL fuel hwf.seg hne hwf.bot_eq
  constructor
  · intro r h
    unfold list_cleanup at h
    cases hc : cleanupLoop fuel m with
    | error e =>
      rw [hc] at h
      cases h
    | ok m1 => exact h1 m1 hc
  · intro hl
    unfold list_cleanup
    rw [h2 hl]
    rfl

/-- C14 (evaluation at the failing input): on the well-formed one-node list
`[1]`, `list_cleanup` sets `bot` to the node's `prev`, which is `NULL`, and
then reads `list->bot->next` for `free`: with fuel for one iteration the run
ends in that read of a `NULL` node, and it returns for no fuel.  On the empty
list the loop is not entered and the list is reset. -/
theorem cleanup_reads_null :
    WellFormed exOne [1] ∧
      (∀ fuel, list_cleanup (fuel + 1) exOne = .error .nullDeref) ∧
      (¬ ∃ fuel r, list_cleanup fuel exOne = .ok r) ∧
      ∀ fuel, ∃ m1, list_cleanup fuel exInit = .ok m1 ∧ m1.list.top = NULL ∧
        m1.list.bot = NULL ∧ m1.list.cursor = NULL ∧ m1.list.len = 0 := by
  refine ⟨wf_exOne, ?_, ?_, ?_⟩
  · intro fuel
    exact (list_cleanup_nonempty_faults exOne [1] (fuel + 1) wf_exOne (by decide)).2
      (by simp)
  · rintro ⟨fuel, r, h⟩
    exact (list_cleanup_nonempty_faults exOne [1] fuel wf_exOne (by decide)).1 r h
  · intro fuel
    cases fuel with
    | zero => exact ⟨_, rfl, rfl, rfl, rfl, rfl⟩
    | succ k => exact ⟨_, rfl, rfl, rfl, rfl, rfl⟩

/-! ## Insertion in the middle -/

/-- The effect of `p->next = v` on a non-null `p`, field by field. -/
theorem storeNext_eval (m : Mem) (p v : Ptr) (h : p ≠ NULL) :
    ∃ m1, storeNext m p v = .ok m1 ∧ m1.list = m.list ∧
      (∀ q, (m1.node q).next = if q = p then v else (m.node q).next) ∧
      (∀ q, (m1.node q).prev = (m.node q).prev) := by
  rw [storeNext_ok m p v h]
  refine ⟨_, rfl, rfl, ?_, ?_⟩
  · intro q
    show (if q = p then _ else _ : ListNode).next = _
    split <;> rfl
  · intro q
    show (if q = p then _ else _ : ListNode).prev = _
    split <;> rfl

/-- The effect of `p->prev = v` on a non-null `p`, field by field. -/
theorem storePrev_eval (m : Mem) (p v : Ptr) (h : p ≠ NULL) :
    ∃ m1, storePrev m p v = .ok m1 ∧ m1.list = m.list ∧
      (∀ q, (m1.node q).next = (m.node q).next) ∧
      (∀ q, (m1.node q).prev = if q = p then v else (m.node q).prev) := by
  rw [storePrev_ok m p v h]
  refine ⟨_, rfl, rfl, ?_, ?_⟩
  · intro q
    show (if q = p then _ else _ : ListNode).next = _
    split <;> rfl
  · intro q
    show (if q = p then _ else _ : ListNode).prev = _
    split <;> rfl

/-- The fields of a memory whose cursor, cursor index and length were
overwritten. -/
theorem setCursorLen_fields (m : Mem) (c i l : Nat) :
    ∃ m1 : Mem, m1 = { m with list := { m.list with cursor := c, ci := i, len := l } } ∧
      m1.list.top = m.list.top ∧ m1.list.bot = m.list.bot ∧ m1.list.cursor = c ∧
      m1.list.len = l ∧ m1.list.ci = i ∧ m1.node = m.node :=
  ⟨_, rfl, rfl, rfl, rfl, rfl, rfl, rfl⟩

/-- What lines 222-230 of `list_insert` do with a non-null `node` and a
non-null `cur` other than `node` that has a predecessor: they return, `node`
points forward to `cur` and back to the predecessor, `cur` points back to
`node`, the predecessor points forward to `node`, the cursor is `node` at index
`i`, and `len` is incremented as an `unsigned int`. -/
theorem insertBefore_eval (m : Mem) (node cur : Ptr) (i : Nat) (hn : node ≠ NULL)
    (hc : cur ≠ NULL) (hne : node ≠ cur) (hp : (m.node cur).prev ≠ NULL) :
    ∃ m1, insertBefore m node cur i = .ok m1 ∧
      m1.list.top = m.list.top ∧ m1.list.bot = m.list.bot ∧ m1.list.cursor = node ∧
      m1.list.len = (m.list.len + 1) % U32 ∧ m1.list.ci = i ∧
      (∀ q, (m1.node q).next =
        if q = (m.node cur).prev then node else if q = node then cur else (m.node q).next) ∧
      (∀ q, (m1.node q).prev =
        if q = cur then node else if q = node then (m.node cur).prev
          else (m.node q).prev) := by
  obtain ⟨m2, e2, l2, n2, p2⟩ := storeNext_eval m node cur hn
  obtain ⟨m3, e3, l3, n3, p3⟩ := storePrev_eval m2 node (m2.node cur).prev hn
  obtain ⟨m4, e4, l4, n4, p4⟩ := storePrev_eval m3 cur node hc
  have hcp : (m2.node cur).prev = (m.node cur).prev := p2 cur
  have hnp : (m4.node node).prev = (m.node cur).prev := by
    rw [p4 node, if_neg hne, p3 node, if_pos rfl, hcp]
  have hnp0 : (m4.node node).prev ≠ NULL := by
    rw [hnp]
    exact hp
  obtain ⟨m5, e5, l5, n5, p5⟩ := storeNext_eval m4 (m4.node node).prev node hnp0
  obtain ⟨m6, hm6, ftop, fbot, fcur, flen, fci, n6⟩ :=
    setCursorLen_fields m5 node i ((m5.list.len + 1) % U32)
  have e6 : insertBefore m node cur i = .ok m6 := by
    rw [hm6]
    unfold insertBefore
    rw [e2, ok_bind, loadPrev_ok m2 cur hc, ok_bind, e3, ok_bind, e4, ok_bind,
      loadPrev_ok m4 node hn, ok_bind, e5, ok_bind]
  have hl : m5.list = m.list := by
    rw [l5, l4, l3, l2]
  refine ⟨m6, e6, ?_, ?_, fcur, ?_, fci, ?_, ?_⟩
  · rw [ftop, hl]
  · rw [fbot, hl]
  · rw [flen, hl]
  · intro q
    rw [n6, n5 q, hnp, n4 q, n3 q, n2 q]
  · intro q
    rw [n6, p5 q, p4 q, p3 q, p2 q, hcp]

/-- The fast paths of `llist_get_node`, read at the node `cur` that follows
the prefix `pre` of a well-formed list: when its index `pre.length` is `ci`,
`0` or `len - 1` the call returns `cur`, whatever the fuel, and writes
nothing. -/
theorem llist_get_node_fast (fuel : Nat) (m : Mem) (pre post : List Ptr) (cur : Ptr)
    (hwf : WellFormed m (pre ++ cur :: post))
    (hfast : pre.length = m.list.ci ∨ pre = [] ∨ post = []) :
    llist_get_node fuel m pre.length = .ok (cur, m) := by
  have hlen := hwf.len_eq
  have hlt := hwf.len_lt
  rw [List.length_append, List.length_cons] at hlen hlt
  have hge : ¬ pre.length ≥ m.list.len := by omega
  unfold llist_get_node
  rw [if_neg hge]
  by_cases h1 : pre.length = m.list.ci
  · rw [if_pos h1]
    have hcur : m.list.cursor = cur := by
      rcases hwf.cursor_ok with ⟨h, _⟩ | ⟨_, h⟩
      · simp at h
      · have e : (pre ++ cur :: post)[pre.length]? = some cur := by
          rw [List.getElem?_append_right (Nat.le_refl _), Nat.sub_self,
            List.getElem?_cons_zero]
        rw [← h1, e] at h
        exact (Option.some.inj h).symm
    rw [hcur]
  · rw [if_neg h1]
    by_cases h2 : pre.length = 0
    · rw [if_pos h2]
      have htop : m.list.top = cur := by
        rw [hwf.top_eq, List.length_eq_zero.mp h2]
        rfl
      rw [htop]
    · rw [if_neg h2]
      have hpost : post = [] := by
        rcases hfast with h | h | h
        · exact absurd h h1
        · exact absurd (by rw [h]; rfl) h2
        · exact h
      have hpl : post.length = 0 := by
        rw [hpost]
        rfl
      have hbot : (m.list.len + U32 - 1) % U32 = m.list.len - 1 := by
        simp only [U32] at hlt ⊢
        omega
      have hi : pre.length = m.list.len - 1 := by omega
      rw [hbot, if_pos hi]
      have hb : m.list.bot = cur := by
        rw [hwf.bot_eq, hpost, List.getLastD_concat]
      rw [hb]

theorem headD_irrel (ys : List Ptr) (a b : Ptr) (h : ys ≠ []) :
    ys.headD a = ys.headD b := by
  cases ys with
  | nil => exact absurd rfl h
  | cons y t => rfl

/-- Inserting a fresh node in the middle of a well-formed list at an index the
fast paths resolve: `list_insert` returns true, whatever the fuel, the links
are those of the sequence with the node put right before the node `cur` that
was at the index, the cursor is the new node at that index, and `len` is
incremented as an `unsigned int`. -/
theorem list_insert_fast_chain (fuel : Nat) (m : Mem) (pre post : List Ptr)
    (cur node : Ptr) (hwf : WellFormed m (pre ++ cur :: post)) (hpre : pre ≠ [])
    (hfast : pre.length = m.list.ci ∨ post = [])
    (hn : node ≠ NULL) (hfresh : node ∉ pre ++ cur :: post) :
    ∃ m1, list_insert fuel m node pre.length = .ok (true, m1) ∧
      Chain m1 (pre ++ node :: cur :: post) ∧ m1.list.cursor = node ∧
      m1.list.ci = pre.length ∧ m1.list.len = (m.list.len + 1) % U32 := by
  have hlen := hwf.len_eq
  rw [List.length_append, List.length_cons] at hlen
  have hpos : 0 < pre.length := List.length_pos.mpr hpre
  obtain ⟨hsegpre, hmid⟩ := (Seg_append m.node pre (cur :: post) NULL NULL).mp hwf.seg
  obtain ⟨hc, hprev, hnext, hsegpost⟩ := hmid
  rw [List.headD_cons] at hsegpre
  obtain ⟨ndpre, ndmid, hdisj⟩ := List.nodup_append.mp hwf.nodup
  have nnpre := Seg_nonnull m.node pre cur NULL hsegpre
  have hnpre : node ∉ pre := fun h => hfresh (List.mem_append_left _ h)
  have hnmid : node ∉ cur :: post := fun h => hfresh (List.mem_append_right _ h)
  have hne : node ≠ cur := fun h => hnmid (h ▸ List.mem_cons_self _ _)
  have hlastmem : pre.getLastD NULL ∈ pre := getLastD_mem pre NULL hpre
  have hp : (m.node cur).prev ≠ NULL := by
    rw [hprev]
    exact nnpre _ hlastmem
  have hget := llist_get_node_fast fuel m pre post cur hwf
    (hfast.elim Or.inl (fun h => Or.inr (Or.inr h)))
  obtain ⟨m1, e1, ftop, fbot, fcur, flen, fci, fnext, fprev⟩ :=
    insertBefore_eval m node cur pre.length hn hc hne hp
  simp only [hprev] at fnext fprev
  have hins : list_insert fuel m node pre.length = .ok (true, m1) := by
    unfold list_insert
    rw [if_neg (by omega), if_neg (by omega), if_neg (by omega), hget, ok_bind]
    show (insertBefore m node cur pre.length >>= fun m2 => Except.ok (true, m2)) = _
    rw [e1, ok_bind]
  refine ⟨m1, hins, ⟨?_, ?_, ?_, ?_⟩, fcur, fci, flen⟩
  · refine List.nodup_append.mpr ⟨ndpre, List.nodup_cons.mpr ⟨hnmid, ndmid⟩, ?_⟩
    intro a h1 h2
    rcases List.mem_cons.mp h2 with h | h
    · exact hnpre (h ▸ h1)
    · exact hdisj h1 h
  · refine (Seg_append m1.node pre (node :: cur :: post) NULL NULL).mpr ⟨?_, ?_⟩
    · rw [List.headD_cons]
      refine Seg_set_after m.node m1.node pre cur node NULL ndpre hsegpre ?_ ?_ ?_
      · intro x hx
        have h1 : ¬ x = cur := fun h => hdisj hx (h ▸ List.mem_cons_self _ _)
        have h2 : ¬ x = node := fun h => hnpre (h ▸ hx)
        rw [fprev x, if_neg h1, if_neg h2]
      · intro x hx hl
        have h1 : ¬ x = pre.getLastD NULL := fun h =>
          hl (h ▸ getLast?_of_ne_nil pre NULL hpre)
        have h2 : ¬ x = node := fun h => hnpre (h ▸ hx)
        rw [fnext x, if_neg h1, if_neg h2]
      · intro x hx
        have hx2 : x = pre.getLastD NULL := by
          have := getLast?_of_ne_nil pre NULL hpre
          rw [hx] at this
          exact Option.some.inj this
        rw [fnext x, if_pos hx2]
    · refine ⟨hn, ?_, ?_, ?_⟩
      · rw [fprev node, if_neg hne, if_pos rfl]
      · have h1 : ¬ node = pre.getLastD NULL := fun h => hnpre (h ▸ hlastmem)
        rw [fnext node, if_neg h1, if_pos rfl]
        rfl
      · refine Seg_set_before m.node m1.node (cur :: post) NULL (pre.getLastD NULL) node
          ndmid ⟨hc, hprev, hnext, hsegpost⟩ ?_ ?_ ?_
        · intro x hx
          have h1 : ¬ x = pre.getLastD NULL := fun h => hdisj hlastmem (h ▸ hx)
          have h2 : ¬ x = node := fun h => hnmid (h ▸ hx)
          rw [fnext x, if_neg h1, if_neg h2]
        · intro x hx hh
          have h1 : ¬ x = cur := fun h => hh (by rw [h]; rfl)
          have h2 : ¬ x = node := fun h => hnmid (h ▸ hx)
          rw [fprev x, if_neg h1, if_neg h2]
        · intro x hx
          have hx2 : x = cur := by
            simp only [List.head?_cons, Option.some.injEq] at hx
            exact hx.symm
          rw [fprev x, if_pos hx2]
  · rw [ftop, hwf.top_eq, headD_append, headD_append]
    exact headD_irrel pre _ _ hpre
  · rw [fbot, hwf.bot_eq, getLastD_append, getLastD_append, List.getLastD_cons,
      List.getLastD_cons, List.getLastD_cons]

/-- C19 without the bound on `len`: for a well-formed list, a fresh non-null
node and an index `0 < i < len` that is `ci` or `len - 1`, `list_insert`
returns true, whatever the fuel, the links are those of the old sequence with
the node put right before the old node at position `i`, the cursor is the new
node, `ci` is `i`, and `len` is incremented as an `unsigned int`. -/
theorem list_insert_fast_spec (fuel : Nat) (m : Mem) (ns : List Ptr) (node : Ptr)
    (i : Nat) (hwf : WellFormed m ns) (hn : node ≠ NULL) (hfresh : node ∉ ns)
    (hi0 : 0 < i) (hi : i < m.list.len)
    (hfast : i = m.list.ci ∨ i = m.list.len - 1) :
    ∃ m1, list_insert fuel m node i = .ok (true, m1) ∧
      Chain m1 (ns.take i ++ node :: ns.drop i) ∧ m1.list.cursor = node ∧
      m1.list.ci = i ∧ m1.list.len = (m.list.len + 1) % U32 := by
  have hlen := hwf.len_eq
  have hil : i < ns.length := by omega
  have hdrop : ns.drop i = ns[i] :: ns.drop (i + 1) := List.drop_eq_getElem_cons hil
  have hns : ns = ns.take i ++ ns[i] :: ns.drop (i + 1) := by
    rw [← hdrop, List.take_append_drop]
  have hpl : (ns.take i).length = i := by
    rw [List.length_take]
    omega
  have hpre : ns.take i ≠ [] := by
    intro h
    rw [h] at hpl
    simp at hpl
    omega
  rw [hdrop]
  generalize ns.take i = pre at hns hpl hpre ⊢
  generalize ns.drop (i + 1) = post at hns ⊢
  generalize ns[i] = cur at hns ⊢
  subst hns
  subst hpl
  rw [List.length_append, List.length_cons] at hlen
  refine list_insert_fast_chain fuel m pre post cur node hwf hpre ?_ hn hfresh
  rcases hfast with h | h
  · exact Or.inl h
  · refine Or.inr (List.length_eq_zero.mp ?_)
    omega

/-- C19 (amended): for every well-formed list of length `n < 2^32 - 1`, every
non-null node not in the list, and every index `i` with `0 < i < n` (so
`n >= 2`) that is `ci` or `n - 1`, `list_insert(list, node, i)` returns true,
whatever the fuel, and afterwards following `next` from `top` enumerates the
old sequence with the node inserted right before the old node at position `i`,
following `prev` from `bot` enumerates its reverse, the cursor is the node,
`ci` is `i` and `len` is `n + 1`. -/
theorem insert_middle_fast_path (fuel : Nat) (m : Mem) (ns : List Ptr) (node : Ptr)
    (i : Nat) (hwf : WellFormed m ns) (hroom : m.list.len < U32 - 1)
    (hn : node ≠ NULL) (hfresh : node ∉ ns) (hi0 : 0 < i) (hi : i < m.list.len)
    (hfast : i = m.list.ci ∨ i = m.list.len - 1) :
    ∃ m1, list_insert fuel m node i = .ok (true, m1) ∧
      (∀ k, ns.length + 1 ≤ k →
        nextChain m1.node k m1.list.top = ns.take i ++ node :: ns.drop i) ∧
      (∀ k, ns.length + 1 ≤ k →
        prevChain m1.node k m1.list.bot = (ns.take i ++ node :: ns.drop i).reverse) ∧
      m1.list.cursor = node ∧ m1.list.ci = i ∧ m1.list.len = m.list.len + 1 := by
  obtain ⟨m1, e1, hch, fcur, fci, flen⟩ :=
    list_insert_fast_spec fuel m ns node i hwf hn hfresh hi0 hi hfast
  have hl : (ns.take i ++ node :: ns.drop i).length = ns.length + 1 := by
    have := hwf.len_eq
    rw [List.length_append, List.length_cons, List.length_take, List.length_drop]
    omega
  refine ⟨m1, e1, ?_, ?_, fcur, fci, ?_⟩
  · intro k hk
    rw [hch.top_eq]
    exact nextChain_of_Seg m1.node _ NULL k hch.seg (by rw [hl]; exact hk)
  · intro k hk
    rw [hch.bot_eq]
    exact prevChain_of_Seg m1.node _ NULL k hch.seg (by rw [hl]; exact hk)
  · rw [flen]
    simp only [U32] at hroom ⊢
    omega

/-- C19 (amended), at a concrete input: node `9` inserted at index `2`, the
last one, of the list `[1, 2, 3]` whose cursor is at index `0`. -/
theorem insert_middle_fast_path_witness :
    ∃ m1, list_insert 0 exThree 9 2 = .ok (true, m1) ∧
      (∀ k, [1, 2, 3].length + 1 ≤ k →
        nextChain m1.node k m1.list.top = [1, 2, 3].take 2 ++ 9 :: [1, 2, 3].drop 2) ∧
      (∀ k, [1, 2, 3].length + 1 ≤ k →
        prevChain m1.node k m1.list.bot =
          ([1, 2, 3].take 2 ++ 9 :: [1, 2, 3].drop 2).reverse) ∧
      m1.list.cursor = 9 ∧ m1.list.ci = 2 ∧ m1.list.len = exThree.list.len + 1 :=
  insert_middle_fast_path 0 exThree [1, 2, 3] 9 2 wf_exThree (by decide) (by decide)
    (by decide) (by decide) (by decide) (Or.inr rfl)

/-- The links of `fullMem N` over the nodes `s, ..., N`. -/
theorem Seg_fullMem (N : Nat) :
    ∀ (n s : Nat), 1 ≤ s → s + n = N + 1 →
      Seg (fullMem N).node (s - 1) (List.range' s n) NULL := by
  intro n
  induction n with
  | zero => intro s _ _; trivial
  | succ k ih =>
    intro s hs hsum
    rw [List.range'_succ]
    have hnext : ((fullMem N).node s).next = (List.range' (s + 1) k).headD NULL := by
      show (if s = N then NULL else s + 1) = _
      cases k with
      | zero =>
        have : s = N := by omega
        rw [if_pos this]
        rfl
      | succ j =>
        have : ¬ s = N := by omega
        rw [if_neg this, List.range'_succ]
        rfl
    have hrest := ih (s + 1) (by omega) (by omega)
    rw [Nat.add_sub_cancel] at hrest
    exact ⟨by show s ≠ 0; omega, rfl, hnext, hrest⟩

/-- The memory `fullMem N` is a well-formed list of the nodes `1, ..., N`, for
every length `N >= 1` that is an `unsigned int`. -/
theorem wf_fullMem (N : Nat) (h1 : 1 ≤ N) (hlt : N < U32) :
    WellFormed (fullMem N) (List.range' 1 N) := by
  obtain ⟨k, rfl⟩ : ∃ k, N = k + 1 := ⟨N - 1, by omega⟩
  refine ⟨⟨List.nodup_range' 1 (k + 1), ?_, ?_, ?_⟩, ?_, ?_, Or.inr ⟨?_, ?_⟩⟩
  · exact Seg_fullMem (k + 1) (k + 1) 1 (Nat.le_refl 1) (by omega)
  · rw [List.range'_succ]
    rfl
  · rw [List.range'_concat, List.getLastD_concat]
    show k + 1 = 1 + 1 * k
    omega
  · rw [List.length_range']
    rfl
  · rw [List.length_range']
    exact hlt
  · rw [List.length_range']
    show k + 1 - 1 < k + 1
    omega
  · show (List.range' 1 (k + 1))[k + 1 - 1]? = some (k + 1)
    rw [List.getElem?_range' 1 1 (by omega)]
    congr 1
    omega

/-- C19 (counterexample): the well-formed list of the `4294967295` nodes
`1, ..., 4294967295`, with the cursor on its last node (`ci = 4294967294`),
and the node `4294967296` outside it.  `list_insert(list, node, 4294967294)`
returns true, whatever the fuel, and `len` is `0` afterwards, not
`4294967296`. -/
theorem insert_full_list_len_wraps :
    WellFormed exFull (List.range' 1 4294967295) ∧ 2 ≤ exFull.list.len ∧
      (4294967296 : Ptr) ∉ List.range' 1 4294967295 ∧
      0 < 4294967294 ∧ 4294967294 < exFull.list.len ∧ 4294967294 = exFull.list.ci ∧
      ∀ fuel, ∃ m1, list_insert fuel exFull 4294967296 4294967294 = .ok (true, m1) ∧
        m1.list.len = 0 ∧ ¬ m1.list.len = exFull.list.len + 1 := by
  have hwf : WellFormed exFull (List.range' 1 4294967295) :=
    wf_fullMem 4294967295 (by norm_num) (by norm_num)
  have hmem : (4294967296 : Ptr) ∉ List.range' 1 4294967295 := by
    rw [List.mem_range'_1]
    omega
  have hlen : exFull.list.len = 4294967295 := rfl
  have hci : exFull.list.ci = 4294967294 := rfl
  refine ⟨hwf, by rw [hlen]; norm_num, hmem, by norm_num, by rw [hlen]; norm_num,
    hci.symm, ?_⟩
  intro fuel
  obtain ⟨m1, e1, _, _, _, flen⟩ :=
    list_insert_fast_spec fuel exFull (List.range' 1 4294967295) 4294967296 4294967294
      hwf (by norm_num) hmem (by norm_num) (by rw [hlen]; norm_num) (Or.inl hci.symm)
  have h0 : m1.list.len = 0 := by
    rw [flen, hlen]
    norm_num
  refine ⟨m1, e1, h0, ?_⟩
  rw [h0, hlen]
  norm_num

end BitsOfC
